import Mathlib

/-!
# Concurrent picture processing: the blur experiment

A shallow embedding of `BlurExprmt.c` (the five blur strategies, the blur
kernel `blur_picture_section`, and the job queue of the pixel strategy) and of
the transforms `invert_picture`, `rotate_picture`, `flip_picture` and
`blur_picture` of `PicProcess.c`.

* C `int` values are `Int`; `/` and `%` are the truncating `Int.tdiv` and
  `Int.tmod`.
* A C `for (int i = lo; i < hi; i++)` loop is `for_loop lo (hi - lo).toNat`; a
  loop whose body may `return` is `for_loop_ret`.
* Code that can go wrong returns `Except Fault _`.
* A strategy's tasks are run to completion one after another, in spawn order;
  every task takes its snapshot (`copy_image`) when it starts.
-/

set_option autoImplicit false

namespace BlurExprmt

/-! ## Data model -/

/-- A pixel: `struct pixel` with its three intensity channels. -/
structure pixel where
  red : Int
  green : Int
  blue : Int
deriving DecidableEq, Repr

/-- Modelled from the spec: `struct picture` of `Picture.h`, a `width` by `height`
grid of pixels; `img x y` is the pixel stored at column `x`, row `y`. Only the
cells with `0 ≤ x < width` and `0 ≤ y < height` are ever read or written. -/
structure picture where
  width : Int
  height : Int
  img : Int → Int → pixel

/-- What can go wrong while the code runs. -/
inductive Fault where
  /-- A `get_pixel` call outside the buffer. -/
  | get (x y : Int)
  /-- A `set_pixel` call outside the buffer. -/
  | set (x y : Int)
  /-- A dereference of `NULL`. -/
  | null
  /-- The loop bound of the model was reached. -/
  | fuel
deriving DecidableEq, Repr

/-- The coordinates for which the buffer has a pixel. -/
def in_bounds (pic : picture) (x y : Int) : Prop :=
  0 ≤ x ∧ x < pic.width ∧ 0 ≤ y ∧ y < pic.height

instance (pic : picture) (x y : Int) : Decidable (in_bounds pic x y) := by
  unfold in_bounds; infer_instance

/-- Modelled from the spec: `get_pixel` of `Picture.c`: "`get(x, y) -> Pixel`,
valid for 0 ≤ x < width, 0 ≤ y < height". A call outside these bounds is a fault. -/
def get_pixel (pic : picture) (x y : Int) : Except Fault pixel :=
  if in_bounds pic x y then .ok (pic.img x y) else .error (.get x y)

/-- Modelled from the spec: `set_pixel` of `Picture.c`: "`set(x, y, Pixel)`,
same bounds". A call outside these bounds is a fault. -/
def set_pixel (pic : picture) (x y : Int) (rgb : pixel) : Except Fault picture :=
  if in_bounds pic x y then
    .ok { pic with img := fun a b => if a = x ∧ b = y then rgb else pic.img a b }
  else .error (.set x y)

/-- Modelled from the spec: `copy_image` of `Picture.c`: "`clone()`: deep copy of
pixel data only, independent of original thereafter". In a value semantics the
copy is the picture itself. -/
def copy_image (pic : picture) : picture := pic

/-- A C loop `for (int i = lo; i < lo + n; i++) s = body(i, s)`, stopping at the
first fault. -/
def for_loop {σ : Type} (lo : Int) (n : Nat) (body : Int → σ → Except Fault σ) (s : σ) :
    Except Fault σ :=
  match n with
  | 0 => .ok s
  | k + 1 =>
    match body lo s with
    | .ok s1 => for_loop (lo + 1) k body s1
    | .error e => .error e

/-- `BLUR_REGION_SIZE`. -/
def BLUR_REGION_SIZE : Int := 9

/-- `NUM_OF_SECTORS`. -/
def NUM_OF_SECTORS : Int := 4

/-- `NUM_OF_THREADS`. -/
def NUM_OF_THREADS : Nat := 100

/-- The fields `startX`, `startY`, `width`, `height` and `next` of
`struct blur_args`. The `pic` pointer is the live picture, which the model
passes along as state; `next` is a pointer into the array of jobs. -/
structure blur_args where
  startX : Int
  startY : Int
  width : Int
  height : Int
  next : Option Nat
deriving DecidableEq, Repr

/-- The three running sums `sum_red`, `sum_green`, `sum_blue`. -/
structure sums where
  sum_red : Int
  sum_green : Int
  sum_blue : Int
deriving DecidableEq, Repr

/-- The two inner loops of `blur_picture_section` (lines 333-340): the sums of the
channels of the nine pixels around `(i, j)`, read from the snapshot `tmp`. -/
def kernel_sums (tmp : picture) (i j : Int) : Except Fault sums :=
  for_loop (-1) 3 (fun n s =>
    for_loop (-1) 3 (fun m s =>
      match get_pixel tmp (i + n) (j + m) with
      | .ok rgb => .ok ⟨s.sum_red + rgb.red, s.sum_green + rgb.green, s.sum_blue + rgb.blue⟩
      | .error e => .error e) s) ⟨0, 0, 0⟩

/-- The body of the loops of `blur_picture_section` (lines 328-346) at `(i, j)`. -/
def blur_pixel_at (tmp : picture) (i j : Int) (pic : picture) : Except Fault picture :=
  match kernel_sums tmp i j with
  | .ok s =>
    set_pixel pic i j
      ⟨s.sum_red.tdiv BLUR_REGION_SIZE, s.sum_green.tdiv BLUR_REGION_SIZE,
        s.sum_blue.tdiv BLUR_REGION_SIZE⟩
  | .error e => .error e

/-- `blur_picture_section` (lines 312-350): takes a snapshot of the picture, then
for `i` in `[startX, width + startX)` and `j` in `[startY, height + startY)` writes
the average of the snapshot around `(i, j)` into the live picture. -/
def blur_picture_section (args : blur_args) (pic : picture) : Except Fault picture :=
  let tmp : picture := copy_image pic
  for_loop args.startX ((args.width + args.startX) - args.startX).toNat (fun i p =>
    for_loop args.startY ((args.height + args.startY) - args.startY).toNat (fun j q =>
      blur_pixel_at tmp i j q) p) pic

/-! ## The whole-image strategies -/

/-- The argument block built by `blur_seq` (lines 103-108). -/
def blur_seq_args (pic : picture) : blur_args :=
  { startX := 1, startY := 1, width := pic.width, height := pic.height, next := none }

/-- `blur_seq` (lines 102-114): one task for the whole picture. -/
def blur_seq (pic : picture) : Except Fault picture :=
  blur_picture_section (blur_seq_args pic) pic

/-- The argument block of the `i`-th task of `blur_by_column` (lines 121-128). -/
def blur_by_column_args (pic : picture) (i : Int) : blur_args :=
  { startX := i + 1, startY := 1, width := 1, height := pic.height, next := none }

/-- `blur_by_column` (lines 118-135): one task per column, `i` from `0` to
`width - 2`. The tasks share one argument block; each reads it when it starts. -/
def blur_by_column (pic : picture) : Except Fault picture :=
  for_loop 0 ((pic.width - 2) - 0).toNat
    (fun i p => blur_picture_section (blur_by_column_args pic i) p) pic

/-- The argument block of the `i`-th task of `blur_by_row` (lines 142-149). -/
def blur_by_row_args (pic : picture) (i : Int) : blur_args :=
  { startX := 1, startY := i + 1, width := pic.width, height := 1, next := none }

/-- `blur_by_row` (lines 139-156): one task per row, `i` from `0` to
`height - 2`. The tasks share one argument block; each reads it when it starts. -/
def blur_by_row (pic : picture) : Except Fault picture :=
  for_loop 0 ((pic.height - 2) - 0).toNat
    (fun i p => blur_picture_section (blur_by_row_args pic i) p) pic

/-- `sectors_height` of `blur_by_sector` (line 263). -/
def sectors_height (pic : picture) : Int := (pic.height - 2).tdiv NUM_OF_SECTORS

/-- `mod` of `blur_by_sector` (line 264). -/
def sectors_mod (pic : picture) : Int := (pic.height - 2).tmod NUM_OF_SECTORS

/-- The four argument blocks `args1` .. `args4` of `blur_by_sector`
(lines 276-298), in spawn order. -/
def blur_by_sector_args (pic : picture) : List blur_args :=
  [ { startX := 1, startY := sectors_height pic * 0 + 1, width := pic.width,
      height := sectors_height pic, next := none },
    { startX := 1, startY := sectors_height pic * 1 + 1, width := pic.width,
      height := sectors_height pic, next := none },
    { startX := 1, startY := sectors_height pic * 2 + 1, width := pic.width,
      height := sectors_height pic, next := none },
    { startX := 1, startY := sectors_height pic * 3 + 1, width := pic.width,
      height := sectors_height pic + sectors_mod pic, next := none } ]

/-- Runs the tasks of a list one after another. -/
def run_tasks (tasks : List blur_args) (pic : picture) : Except Fault picture :=
  match tasks with
  | [] => .ok pic
  | a :: rest =>
    match blur_picture_section a pic with
    | .ok p => run_tasks rest p
    | .error e => .error e

/-- `blur_by_sector` (lines 261-308): `blur_seq` when a sector would have no
row, four tasks otherwise. -/
def blur_by_sector (pic : picture) : Except Fault picture :=
  if sectors_height pic = 0 then blur_seq pic
  else run_tasks (blur_by_sector_args pic) pic

/-! ## The job queue and the pixel strategy -/

/-- The fields `front` and `len` of `struct jobqueue`; the lock has no
counterpart in a sequential model. -/
structure jobqueue where
  front : Option Nat
  len : Int
deriving DecidableEq, Repr

/-- The memory the queue code works on: the array of jobs (a job pointer is its
index in `args`) and the queue. -/
structure job_state where
  args : Nat → blur_args
  job_queue : jobqueue

/-- Stores a new `next` link in job `a`. -/
def set_next (args : Nat → blur_args) (a : Nat) (nxt : Option Nat) : Nat → blur_args :=
  fun b => if b = a then { args a with next := nxt } else args b

/-- `init_queue` (lines 179-183). -/
def init_queue (st : job_state) : job_state :=
  { st with job_queue := { front := none, len := 0 } }

/-- `push_job` (lines 186-194) of the job at index `a`. -/
def push_job (a : Nat) (st : job_state) : job_state :=
  if st.job_queue.len = 0 then
    { st with job_queue := { front := some a, len := st.job_queue.len + 1 } }
  else
    { args := set_next st.args a st.job_queue.front,
      job_queue := { front := some a, len := st.job_queue.len + 1 } }

/-- `pop_job` (lines 198-207): the popped job (`none` for `NULL`) and the new
state. -/
def pop_job (st : job_state) : Except Fault (Option Nat × job_state) :=
  if st.job_queue.len = 0 then .ok (none, st)
  else
    match st.job_queue.front with
    | none => .error .null
    | some a =>
      .ok (some a,
        { args := set_next st.args a none,
          job_queue := { front := (st.args a).next, len := st.job_queue.len - 1 } })

/-- The state of the loops of `initialize_args`: the counter `i` and the memory. -/
structure init_state where
  i : Nat
  st : job_state

/-- The body of the loops of `initialize_args` (lines 166-173) at column `j`,
row `k`. -/
def initialize_one (k j : Int) (s : init_state) : init_state :=
  { i := s.i + 1,
    st := push_job s.i
      { s.st with args := fun b =>
          if b = s.i then
            { startX := j, startY := k, width := 1, height := 1, next := none }
          else s.st.args b } }

/-- `initialize_args` (lines 161-176). -/
def initialize_args (pic : picture) (st : job_state) : job_state :=
  match for_loop 1 ((pic.height - 1) - 1).toNat (fun k s =>
      for_loop 1 ((pic.width - 1) - 1).toNat (fun j s1 => .ok (initialize_one k j s1)) s)
      ({ i := 0, st := st } : init_state) with
  | .ok s => s.st
  | .error _ => st

/-- The loop of `thread_work` (lines 217-226), run for at most `fuel` rounds. -/
def thread_work_loop (fuel : Nat) (st : job_state) (pic : picture) :
    Except Fault (job_state × picture) :=
  match fuel with
  | 0 => .error .fuel
  | n + 1 =>
    match pop_job st with
    | .error e => .error e
    | .ok (none, st1) => .ok (st1, pic)
    | .ok (some a, st1) =>
      match blur_picture_section (st1.args a) pic with
      | .ok p => thread_work_loop n st1 p
      | .error e => .error e

/-- `thread_work` (lines 212-227): a queue of length `len` is drained in
`len + 1` rounds. -/
def thread_work (st : job_state) (pic : picture) : Except Fault (job_state × picture) :=
  thread_work_loop (st.job_queue.len.toNat + 1) st pic

/-- `blur_by_pixel` (lines 233-256); `mem` is the content of the freshly
allocated array of jobs. The workers run one after another. -/
def blur_by_pixel (mem : Nat → blur_args) (pic : picture) : Except Fault picture :=
  let st0 := init_queue { args := mem, job_queue := { front := none, len := 0 } }
  let st1 := initialize_args pic st0
  match for_loop 0 NUM_OF_THREADS (fun _ s => thread_work s.1 s.2) (st1, pic) with
  | .ok s => .ok s.2
  | .error e => .error e

/-! ## Notions used to state the properties -/

/-- A region lies within the interior of the picture: it starts at column and
row 1 or later and ends before the last column and the last row. -/
def within_interior (args : blur_args) (pic : picture) : Prop :=
  1 ≤ args.startX ∧ 1 ≤ args.startY ∧
    args.startX + args.width ≤ pic.width - 1 ∧ args.startY + args.height ≤ pic.height - 1

instance (args : blur_args) (pic : picture) : Decidable (within_interior args pic) := by
  unfold within_interior; infer_instance

/-- The pixel `(x, y)` belongs to the region. -/
def in_region (args : blur_args) (x y : Int) : Prop :=
  args.startX ≤ x ∧ x < args.startX + args.width ∧
    args.startY ≤ y ∧ y < args.startY + args.height

instance (args : blur_args) (x y : Int) : Decidable (in_region args x y) := by
  unfold in_region; infer_instance

/-- The row `y` belongs to the region. -/
def in_rows (args : blur_args) (y : Int) : Prop :=
  args.startY ≤ y ∧ y < args.startY + args.height

instance (args : blur_args) (y : Int) : Decidable (in_rows args y) := by
  unfold in_rows; infer_instance

/-- The pixel `(x, y)` is an interior pixel of the picture. -/
def interior (pic : picture) (x y : Int) : Prop :=
  1 ≤ x ∧ x ≤ pic.width - 2 ∧ 1 ≤ y ∧ y ≤ pic.height - 2

instance (pic : picture) (x y : Int) : Decidable (interior pic x y) := by
  unfold interior; infer_instance

/-- The pixel `(x, y)` is a border pixel of the picture. -/
def border (pic : picture) (x y : Int) : Prop :=
  in_bounds pic x y ∧ (x = 0 ∨ x = pic.width - 1 ∨ y = 0 ∨ y = pic.height - 1)

instance (pic : picture) (x y : Int) : Decidable (border pic x y) := by
  unfold border; infer_instance

/-- The sum of `f` over the nine positions `(x + n, y + m)`, `n, m ∈ {-1, 0, 1}`. -/
def sum9 (f : Int → Int → Int) (x y : Int) : Int :=
  f (x - 1) (y - 1) + f (x - 1) y + f (x - 1) (y + 1) +
  f x (y - 1) + f x y + f x (y + 1) +
  f (x + 1) (y - 1) + f (x + 1) y + f (x + 1) (y + 1)

/-- The value the specification gives a blurred pixel: per channel, the sum over
the nine pixels around `(x, y)` in `src`, divided by 9 with truncation. -/
def box_average (src : picture) (x y : Int) : pixel :=
  { red := (sum9 (fun a b => (src.img a b).red) x y).tdiv 9,
    green := (sum9 (fun a b => (src.img a b).green) x y).tdiv 9,
    blue := (sum9 (fun a b => (src.img a b).blue) x y).tdiv 9 }

/-- The picture `pic` with the pixels of the region replaced by the averages
taken in `src`. -/
def blurred_in (src : picture) (args : blur_args) (pic : picture) : picture :=
  { pic with img := fun x y => if in_region args x y then box_average src x y else pic.img x y }

/-- Pops jobs until `pop_job` returns `NULL`, as the loop of `thread_work` does,
and lists the jobs in the order they were handed out; at most `fuel` pops. -/
def pop_until_null (fuel : Nat) (st : job_state) : Except Fault (List Nat × job_state) :=
  match fuel with
  | 0 => .error .fuel
  | n + 1 =>
    match pop_job st with
    | .error e => .error e
    | .ok (none, st1) => .ok ([], st1)
    | .ok (some a, st1) =>
      match pop_until_null n st1 with
      | .ok (l, st2) => .ok (a :: l, st2)
      | .error e => .error e

/-- The results of `n` successive `pop_job` calls, and the state they leave. -/
def pop_n (n : Nat) (st : job_state) : Except Fault (List (Option Nat) × job_state) :=
  match n with
  | 0 => .ok ([], st)
  | k + 1 =>
    match pop_job st with
    | .error e => .error e
    | .ok (r, st1) =>
      match pop_n k st1 with
      | .ok (l, st2) => .ok (r :: l, st2)
      | .error e => .error e

/-- The jobs of a list pushed in order, the head first. -/
def push_all (js : List Nat) (st : job_state) : job_state :=
  js.foldl (fun s j => push_job j s) st

/-- The `next` links, followed from `front`, run through exactly the jobs of the
list `l` and end in `NULL`. -/
def chain (args : Nat → blur_args) (front : Option Nat) (l : List Nat) : Prop :=
  match l with
  | [] => front = none
  | a :: t => front = some a ∧ chain args (args a).next t

/-- The queue holds exactly the jobs of `l`, the front job first. -/
def holds (st : job_state) (l : List Nat) : Prop :=
  chain st.args st.job_queue.front l ∧ st.job_queue.len = l.length ∧ l.Nodup

/-- The pixel a job is for. -/
def job_pixel (st : job_state) (a : Nat) : Int × Int :=
  ((st.args a).startX, (st.args a).startY)

/-- The pixels `(j0, k)`, `(j0 + 1, k)`, ... of row `k`, `n` of them. -/
def row_pixels (k : Int) (j0 : Int) (n : Nat) : List (Int × Int) :=
  match n with
  | 0 => []
  | n1 + 1 => (j0, k) :: row_pixels k (j0 + 1) n1

/-- The pixels of `m` rows from row `k0` on, each with `n` pixels from column
`j0` on, row after row. -/
def grid_pixels (j0 : Int) (n : Nat) (k0 : Int) (m : Nat) : List (Int × Int) :=
  match m with
  | 0 => []
  | m1 + 1 => row_pixels k0 j0 n ++ grid_pixels j0 n (k0 + 1) m1

/-- The region fields of a job: `startX`, `startY`, `width`, `height`. -/
def job_region (st : job_state) (a : Nat) : Int × Int × Int × Int :=
  ((st.args a).startX, (st.args a).startY, (st.args a).width, (st.args a).height)

/-- The state of `initialize_args` after jobs for the pixels of `done` have been
pushed: job `b` is the 1 by 1 job of the `b`-th pixel of `done`, and the queue
holds the jobs `i - 1, ..., 0`. -/
def init_inv (s : init_state) (done : List (Int × Int)) : Prop :=
  s.i = done.length ∧ holds s.st (List.range s.i).reverse ∧
    (List.range s.i).map (job_region s.st) = done.map (fun p => (p.1, p.2, 1, 1))

/-- The truncated average, per channel, of the nine pixels of a 3 by 3 picture. -/
def whole_average3 (pic : picture) : pixel :=
  { red := ((pic.img 0 0).red + (pic.img 1 0).red + (pic.img 2 0).red +
      (pic.img 0 1).red + (pic.img 1 1).red + (pic.img 2 1).red +
      (pic.img 0 2).red + (pic.img 1 2).red + (pic.img 2 2).red).tdiv 9,
    green := ((pic.img 0 0).green + (pic.img 1 0).green + (pic.img 2 0).green +
      (pic.img 0 1).green + (pic.img 1 1).green + (pic.img 2 1).green +
      (pic.img 0 2).green + (pic.img 1 2).green + (pic.img 2 2).green).tdiv 9,
    blue := ((pic.img 0 0).blue + (pic.img 1 0).blue + (pic.img 2 0).blue +
      (pic.img 0 1).blue + (pic.img 1 1).blue + (pic.img 2 1).blue +
      (pic.img 0 2).blue + (pic.img 1 2).blue + (pic.img 2 2).blue).tdiv 9 }

/-- The 1 by 1 region of the pixel `(x, y)`. -/
def pixel_region (x y : Int) : blur_args :=
  { startX := x, startY := y, width := 1, height := 1, next := none }

/-- The picture after the 1 by 1 regions of the pixels of a list have been blurred
one after another, each from the picture as it is when its turn comes. -/
def blur_pixels (ps : List (Int × Int)) (pic : picture) : picture :=
  ps.foldl (fun p xy => blurred_in p (pixel_region xy.1 xy.2) p) pic

/-! ## Sample inputs -/

/-- A 4 by 3 picture, black but for the pixel `(2, 1)`; its interior is the two
pixels `(1, 1)` and `(2, 1)`. -/
def spike : picture :=
  { width := 4, height := 3,
    img := fun x y => if x = 2 ∧ y = 1 then ⟨90, 90, 90⟩ else ⟨0, 0, 0⟩ }

/-- A 3 by 3 picture with nine different pixels. -/
def nine : picture :=
  { width := 3, height := 3, img := fun x y => ⟨x * x + 10 * y, 255 - x - y, 7 * x * y⟩ }

/-- A 5 by 12 picture: its interior height is 10. -/
def tall : picture :=
  { width := 5, height := 12, img := fun x y => ⟨x + y, x * y, 3⟩ }

/-- An array of jobs with nothing stored yet. -/
def blank_jobs : Nat → blur_args :=
  fun _ => { startX := 0, startY := 0, width := 0, height := 0, next := none }

/-- A queue memory over `blank_jobs`, before `init_queue`. -/
def blank_state : job_state :=
  { args := blank_jobs, job_queue := { front := some 7, len := 5 } }

/-! ## The library transforms (`PicProcess.c`) -/

/-- Modelled from the spec: `MAX_PIXEL_INTENSITY` of `Picture.h`, the largest value
of an 8-bit channel. -/
def MAX_PIXEL_INTENSITY : Int := 255

/-- The statements `rgb = get_pixel(&tmp, x, y); set_pixel(pic, i, j, &rgb);`. -/
def copy_pixel (tmp : picture) (x y : Int) (pic : picture) (i j : Int) :
    Except Fault picture :=
  match get_pixel tmp x y with
  | .ok rgb => set_pixel pic i j rgb
  | .error e => .error e

/-- The body of the loops of `invert_picture` (lines 10-14) at `(i, j)`. -/
def invert_pixel_at (i j : Int) (pic : picture) : Except Fault picture :=
  match get_pixel pic i j with
  | .ok rgb =>
    set_pixel pic i j
      ⟨MAX_PIXEL_INTENSITY - rgb.red, MAX_PIXEL_INTENSITY - rgb.green,
        MAX_PIXEL_INTENSITY - rgb.blue⟩
  | .error e => .error e

/-- `invert_picture` (PicProcess.c, lines 7-17). -/
def invert_picture (pic : picture) : Except Fault picture :=
  for_loop 0 (pic.width - 0).toNat (fun i p =>
    for_loop 0 (pic.height - 0).toNat (fun j q => invert_pixel_at i j q) p) pic

/-- How a round of a loop ends: the loop goes on, or the function returns from
inside the loop. -/
inductive loop_step (σ : Type) where
  /-- The loop goes on with the state `s`. -/
  | next (s : σ)
  /-- A `return` statement was reached in the state `s`. -/
  | returned (s : σ)

/-- A C loop `for (int i = lo; i < lo + n; i++)` whose body may return from the
function; it stops at the first fault or `return`. -/
def for_loop_ret {σ : Type} (lo : Int) (n : Nat)
    (body : Int → σ → Except Fault (loop_step σ)) (s : σ) : Except Fault (loop_step σ) :=
  match n with
  | 0 => .ok (.next s)
  | k + 1 =>
    match body lo s with
    | .ok (.next s1) => for_loop_ret (lo + 1) k body s1
    | .ok (.returned s1) => .ok (.returned s1)
    | .error e => .error e

/-- A statement that does not return from the function, as a round of a loop. -/
def goes_on {σ : Type} (r : Except Fault σ) : Except Fault (loop_step σ) :=
  match r with
  | .ok s => .ok (.next s)
  | .error e => .error e

/-- The state a function ends in, whether its last loop ran to its end or the
function returned from inside it. -/
def at_exit {σ : Type} (r : Except Fault (loop_step σ)) : Except Fault σ :=
  match r with
  | .ok (.next s) => .ok s
  | .ok (.returned s) => .ok s
  | .error e => .error e

/-- Modelled from the spec: `clear_picture` followed by `init_picture_from_size`
of `Picture.c`: the picture becomes a new image of the given size. The content of
a new image is not specified; it is the parameter `fresh`, a function of the size
alone. -/
def init_picture_from_size (fresh : Int → Int → Int → Int → pixel) (w h : Int) : picture :=
  { width := w, height := h, img := fresh w h }

/-- The body of the loops of `rotate_picture` (lines 51-67) at `(i, j)`: the
`switch` on the angle, whose `default` case returns from the function. -/
def rotate_pixel_at (tmp : picture) (angle new_width new_height : Int) (i j : Int)
    (pic : picture) : Except Fault (loop_step picture) :=
  if angle = 90 then goes_on (copy_pixel tmp j (new_width - 1 - i) pic i j)
  else if angle = 180 then
    goes_on (copy_pixel tmp (new_width - 1 - i) (new_height - 1 - j) pic i j)
  else if angle = 270 then goes_on (copy_pixel tmp (new_height - 1 - j) i pic i j)
  else .ok (.returned pic)

/-- `rotate_picture` (PicProcess.c, lines 32-71). -/
def rotate_picture (fresh : Int → Int → Int → Int → pixel) (pic : picture) (angle : Int) :
    Except Fault picture :=
  let tmp : picture := copy_image pic
  let new_width : Int := if angle = 90 ∨ angle = 270 then tmp.height else tmp.width
  let new_height : Int := if angle = 90 ∨ angle = 270 then tmp.width else tmp.height
  let pic1 : picture := init_picture_from_size fresh new_width new_height
  at_exit (for_loop_ret 0 (new_width - 0).toNat (fun i p =>
    for_loop_ret 0 (new_height - 0).toNat (fun j q =>
      rotate_pixel_at tmp angle new_width new_height i j q) p) pic1)

/-- `flip_picture` (PicProcess.c, lines 73-99). -/
def flip_picture (pic : picture) (plane : Char) : Except Fault picture :=
  let tmp : picture := copy_image pic
  if plane = 'V' then
    for_loop 0 (tmp.width - 0).toNat (fun i p =>
      for_loop 0 (tmp.height - 0).toNat (fun j q =>
        copy_pixel tmp i (tmp.height - 1 - j) q i j) p) pic
  else if plane = 'H' then
    for_loop 0 (tmp.width - 0).toNat (fun i p =>
      for_loop 0 (tmp.height - 0).toNat (fun j q =>
        copy_pixel tmp (tmp.width - 1 - i) j q i j) p) pic
  else .ok pic

/-- `blur_picture` (PicProcess.c, lines 101-132). The body of its loops
(lines 110-128) is, statement for statement, the body of the loops of
`blur_picture_section`, `blur_pixel_at`. -/
def blur_picture (pic : picture) : Except Fault picture :=
  let tmp : picture := copy_image pic
  for_loop 1 ((tmp.width - 1) - 1).toNat (fun i p =>
    for_loop 1 ((tmp.height - 1) - 1).toNat (fun j q => blur_pixel_at tmp i j q) p) pic

/-! ## More notions used to state the properties -/

/-- The integers `lo`, `lo + 1`, ..., `n` of them: the values the counter of a
loop takes. -/
def int_range (lo : Int) (n : Nat) : List Int :=
  match n with
  | 0 => []
  | k + 1 => lo :: int_range (lo + 1) k

/-- When the tasks of a call read the one argument block they share: the `i`-th of
`n` tasks, spawned in round `i` of the spawning loop, reads the block as round
`seen i` left it, a round from `i` on. -/
def reads_shared_block (n : Nat) (seen : Int → Int) : Prop :=
  ∀ i : Int, 0 ≤ i → i < (n : Int) → i ≤ seen i ∧ seen i < (n : Int)

/-- The regions the tasks of `blur_by_column` work on, in spawn order. Every task
is handed the address of the one block `args`, whose `startX` the spawning loop
overwrites (lines 121-130), and reads the block when it starts (line 315): the
`i`-th task finds the block of round `seen i`. With `seen i = i` every task reads
the block as soon as it is spawned. -/
def blur_by_column_tasks (pic : picture) (seen : Int → Int) : List blur_args :=
  (int_range 0 ((pic.width - 2) - 0).toNat).map (fun i => blur_by_column_args pic (seen i))

/-- The regions the tasks of `blur_by_row` work on, in spawn order. Every task is
handed the address of the one block `args`, whose `startY` the spawning loop
overwrites (lines 142-151), and reads the block when it starts (line 315): the
`i`-th task finds the block of round `seen i`. With `seen i = i` every task reads
the block as soon as it is spawned. -/
def blur_by_row_tasks (pic : picture) (seen : Int → Int) : List blur_args :=
  (int_range 0 ((pic.height - 2) - 0).toNat).map (fun i => blur_by_row_args pic (seen i))

/-- The argument blocks `blur_by_sector` hands to its tasks, in spawn order: the
one of `blur_seq` when a sector would have no row. Every task has a block of its
own (`args1` to `args4`). -/
def blur_by_sector_tasks (pic : picture) : List blur_args :=
  if sectors_height pic = 0 then [blur_seq_args pic] else blur_by_sector_args pic

/-- No pixel belongs to both regions. -/
def disjoint_regions (a b : blur_args) : Prop :=
  ∀ x y, ¬ (in_region a x y ∧ in_region b x y)

/-- The job `a` is in the queue: it is on the chain of `next` links that starts
at `front`. -/
def in_queue (st : job_state) (a : Nat) : Prop :=
  ∃ l, chain st.args st.job_queue.front l ∧ a ∈ l

/-- The states of the queue memory reachable from `init_queue` by `push_job` of a
job with `next = NULL` that is not in the queue, by `pop_job`, and by stores into
jobs that are not in the queue (as `initialize_args` makes before it pushes). -/
inductive reachable : job_state → Prop where
  | init (st0 : job_state) : reachable (init_queue st0)
  | push (st : job_state) (a : Nat) : reachable st → (st.args a).next = none →
      ¬ in_queue st a → reachable (push_job a st)
  | pop (st st1 : job_state) (r : Option Nat) : reachable st →
      pop_job st = .ok (r, st1) → reachable st1
  | store (st : job_state) (a : Nat) (v : blur_args) : reachable st → ¬ in_queue st a →
      reachable { st with args := fun b => if b = a then v else st.args b }

/-- The three channels of the pixel are 8-bit values. -/
def eight_bit (p : pixel) : Prop :=
  (0 ≤ p.red ∧ p.red ≤ 255) ∧ (0 ≤ p.green ∧ p.green ≤ 255) ∧ (0 ≤ p.blue ∧ p.blue ≤ 255)

instance (p : pixel) : Decidable (eight_bit p) := by
  unfold eight_bit; infer_instance

/-- The inverse of a colour: every channel `c` becomes `MAX_PIXEL_INTENSITY - c`. -/
def invert_pixel (c : pixel) : pixel :=
  { red := MAX_PIXEL_INTENSITY - c.red, green := MAX_PIXEL_INTENSITY - c.green,
    blue := MAX_PIXEL_INTENSITY - c.blue }

/-- The picture with every pixel within its bounds inverted. -/
def inverted (pic : picture) : picture :=
  { pic with img := fun x y =>
      if in_bounds pic x y then invert_pixel (pic.img x y) else pic.img x y }

/-- A new image of the given size whose pixels within its bounds have been set
to those of `src`. -/
def filled (fresh : Int → Int → Int → Int → pixel) (w h : Int) (src : Int → Int → pixel) :
    picture :=
  { width := w, height := h,
    img := fun x y => if (0 ≤ x ∧ x < w) ∧ 0 ≤ y ∧ y < h then src x y else fresh w h x y }

/-- The region of all interior pixels of the picture. -/
def interior_region (pic : picture) : blur_args :=
  { startX := 1, startY := 1, width := pic.width - 2, height := pic.height - 2, next := none }

/-! ## More sample inputs -/

/-- A 2 by 2 picture: it has no interior. -/
def small : picture :=
  { width := 2, height := 2, img := fun x y => ⟨x + 2 * y, 50, 60⟩ }

/-- A 3 by 2 picture with six different pixels. -/
def wide : picture :=
  { width := 3, height := 2, img := fun x y => ⟨x + 3 * y, 10 * x, 200 - y⟩ }

/-- New images are black. -/
def fresh_black : Int → Int → Int → Int → pixel :=
  fun _ _ _ _ => ⟨0, 0, 0⟩

/-! ## The blur of a region within the interior -/

theorem kernel_sums_interior (tmp : picture) (i j : Int)
    (hi : 1 ≤ i) (hi2 : i ≤ tmp.width - 2) (hj : 1 ≤ j) (hj2 : j ≤ tmp.height - 2) :
    kernel_sums tmp i j =
      .ok ⟨sum9 (fun a b => (tmp.img a b).red) i j, sum9 (fun a b => (tmp.img a b).green) i j,
        sum9 (fun a b => (tmp.img a b).blue) i j⟩ := by
  have b1 : in_bounds tmp (i + -1) (j + -1) := by unfold in_bounds; omega
  have b2 : in_bounds tmp (i + -1) (j + (-1 + 1)) := by unfold in_bounds; omega
  have b3 : in_bounds tmp (i + -1) (j + (-1 + 1 + 1)) := by unfold in_bounds; omega
  have b4 : in_bounds tmp (i + (-1 + 1)) (j + -1) := by unfold in_bounds; omega
  have b5 : in_bounds tmp (i + (-1 + 1)) (j + (-1 + 1)) := by unfold in_bounds; omega
  have b6 : in_bounds tmp (i + (-1 + 1)) (j + (-1 + 1 + 1)) := by unfold in_bounds; omega
  have b7 : in_bounds tmp (i + (-1 + 1 + 1)) (j + -1) := by unfold in_bounds; omega
  have b8 : in_bounds tmp (i + (-1 + 1 + 1)) (j + (-1 + 1)) := by unfold in_bounds; omega
  have b9 : in_bounds tmp (i + (-1 + 1 + 1)) (j + (-1 + 1 + 1)) := by unfold in_bounds; omega
  have e1 : i + -1 = i - 1 := by omega
  have e2 : i + (-1 + 1) = i := by omega
  have e3 : i + (-1 + 1 + 1) = i + 1 := by omega
  have f1 : j + -1 = j - 1 := by omega
  have f2 : j + (-1 + 1) = j := by omega
  have f3 : j + (-1 + 1 + 1) = j + 1 := by omega
  unfold kernel_sums
  simp only [for_loop, get_pixel, b1, b2, b3, b4, b5, b6, b7, b8, b9, if_true]
  simp only [e1, e2, e3, f1, f2, f3, sum9]
  congr 2 <;> omega

theorem blur_pixel_at_interior (tmp q : picture) (i j : Int)
    (hw : q.width = tmp.width) (hh : q.height = tmp.height)
    (hi : 1 ≤ i) (hi2 : i ≤ tmp.width - 2) (hj : 1 ≤ j) (hj2 : j ≤ tmp.height - 2) :
    blur_pixel_at tmp i j q =
      .ok { q with img := fun a b => if a = i ∧ b = j then box_average tmp i j else q.img a b } := by
  have hb : in_bounds q i j := by unfold in_bounds; omega
  unfold blur_pixel_at
  rw [kernel_sums_interior tmp i j hi hi2 hj hj2]
  simp only [set_pixel, hb, if_true, BLUR_REGION_SIZE, box_average]

/-- The loop over the rows of one column `i`. -/
theorem column_loop_interior (tmp : picture) (i : Int) (n : Nat) :
    ∀ (y0 : Int) (q : picture), q.width = tmp.width → q.height = tmp.height →
      (∀ b, y0 ≤ b → b < y0 + n → interior tmp i b) →
      for_loop y0 n (fun j p => blur_pixel_at tmp i j p) q =
        .ok { q with img := fun a b =>
          if a = i ∧ y0 ≤ b ∧ b < y0 + n then box_average tmp a b else q.img a b } := by
  induction n with
  | zero =>
    intro y0 q _ _ _
    simp only [for_loop]
    congr 1
    cases q with
    | mk w h img =>
      simp only [picture.mk.injEq, true_and]
      funext a b
      have : ¬ (a = i ∧ y0 ≤ b ∧ b < y0 + ((0 : Nat) : Int)) := by omega
      simp only [this, if_false]
  | succ k ih =>
    intro y0 q hw hh hc
    obtain ⟨hi, hi2, hy, hy2⟩ := hc y0 (le_refl _) (by push_cast; omega)
    simp only [for_loop]
    rw [blur_pixel_at_interior tmp q i y0 hw hh hi hi2 hy hy2]
    simp only
    refine (ih (y0 + 1)
      { q with img := fun a b => if a = i ∧ b = y0 then box_average tmp i y0 else q.img a b }
      hw hh (fun b hb1 hb2 => hc b (by omega) (by push_cast; omega))).trans ?_
    congr 1
    simp only [picture.mk.injEq, true_and]
    funext a b
    by_cases h1 : a = i ∧ y0 + 1 ≤ b ∧ b < y0 + 1 + (k : Int)
    · have h2 : a = i ∧ y0 ≤ b ∧ b < y0 + ((k + 1 : Nat) : Int) := by push_cast; omega
      simp only [h1, h2, and_self, if_true]
    · by_cases h3 : a = i ∧ b = y0
      · have h2 : a = i ∧ y0 ≤ b ∧ b < y0 + ((k + 1 : Nat) : Int) := by push_cast; omega
        rw [if_neg h1, if_pos h3, if_pos h2, h3.1, h3.2]
      · have h2 : ¬ (a = i ∧ y0 ≤ b ∧ b < y0 + ((k + 1 : Nat) : Int)) := by push_cast; omega
        simp only [h1, h2, h3, if_false]

/-- The loop over the columns of a band of rows. -/
theorem region_loop_interior (tmp : picture) (y0 : Int) (m : Nat) (n : Nat) :
    ∀ (x0 : Int) (q : picture), q.width = tmp.width → q.height = tmp.height →
      (∀ a b, x0 ≤ a → a < x0 + n → y0 ≤ b → b < y0 + m → interior tmp a b) →
      for_loop x0 n (fun i p => for_loop y0 m (fun j r => blur_pixel_at tmp i j r) p) q =
        .ok { q with img := fun a b =>
          if (x0 ≤ a ∧ a < x0 + n) ∧ y0 ≤ b ∧ b < y0 + m then box_average tmp a b else q.img a b } := by
  induction n with
  | zero =>
    intro x0 q _ _ _
    simp only [for_loop]
    congr 1
    cases q with
    | mk w h img =>
      simp only [picture.mk.injEq, true_and]
      funext a b
      have : ¬ ((x0 ≤ a ∧ a < x0 + ((0 : Nat) : Int)) ∧ y0 ≤ b ∧ b < y0 + (m : Int)) := by omega
      simp only [this, if_false]
  | succ k ih =>
    intro x0 q hw hh hc
    simp only [for_loop]
    rw [column_loop_interior tmp x0 m y0 q hw hh
      (fun b hb1 hb2 => hc x0 b (le_refl _) (by push_cast; omega) hb1 hb2)]
    simp only
    refine (ih (x0 + 1)
      { q with img := fun a b =>
          if a = x0 ∧ y0 ≤ b ∧ b < y0 + m then box_average tmp a b else q.img a b }
      hw hh
      (fun a b ha1 ha2 hb1 hb2 => hc a b (by omega) (by push_cast; omega) hb1 hb2)).trans ?_
    congr 1
    simp only [picture.mk.injEq, true_and]
    funext a b
    by_cases hb : y0 ≤ b ∧ b < y0 + (m : Int)
    · by_cases h1 : x0 + 1 ≤ a ∧ a < x0 + 1 + (k : Int)
      · have h2 : x0 ≤ a ∧ a < x0 + ((k + 1 : Nat) : Int) := by push_cast; omega
        simp only [h1, h2, hb, and_self, if_true]
      · by_cases h3 : a = x0
        · have h2 : x0 ≤ a ∧ a < x0 + ((k + 1 : Nat) : Int) := by push_cast; omega
          rw [if_neg (fun hn => h1 hn.1), if_pos ⟨h3, hb⟩, if_pos ⟨h2, hb⟩]
        · have h2 : ¬ (x0 ≤ a ∧ a < x0 + ((k + 1 : Nat) : Int)) := by push_cast; omega
          simp only [h1, h2, hb, h3, if_false, false_and]
    · simp only [hb, and_false, if_false]

/-- A region within the interior is blurred without a fault, and the result is
the picture with the averages of the call-time picture written into the region. -/
theorem blur_picture_section_interior (args : blur_args) (pic : picture)
    (h : within_interior args pic) :
    blur_picture_section args pic = .ok (blurred_in pic args pic) := by
  obtain ⟨h1, h2, h3, h4⟩ := h
  unfold blur_picture_section copy_image
  simp only
  rw [region_loop_interior pic args.startY _ _ args.startX pic rfl rfl
    (fun a b ha1 ha2 hb1 hb2 => by unfold interior; omega)]
  congr 1
  unfold blurred_in
  simp only [picture.mk.injEq, true_and]
  funext a b
  by_cases hr : in_region args a b
  · have : (args.startX ≤ a ∧ a < args.startX + ((args.width + args.startX - args.startX).toNat : Int)) ∧
        args.startY ≤ b ∧ b < args.startY + ((args.height + args.startY - args.startY).toNat : Int) := by
      unfold in_region at hr; omega
    simp only [hr, this, and_self, if_true]
  · have : ¬ ((args.startX ≤ a ∧ a < args.startX + ((args.width + args.startX - args.startX).toNat : Int)) ∧
        args.startY ≤ b ∧ b < args.startY + ((args.height + args.startY - args.startY).toNat : Int)) := by
      unfold in_region at hr; omega
    simp only [hr, this, if_false]

/-! ## Regions that reach the last row or the last column -/

/-- The kernel at a pixel of the last row reads below the picture. -/
theorem kernel_sums_last_row (tmp : picture) (i : Int)
    (hi : 1 ≤ i) (hi2 : i ≤ tmp.width - 1) (hh : 2 ≤ tmp.height) :
    kernel_sums tmp i (tmp.height - 1) = .error (.get (i - 1) tmp.height) := by
  have b1 : in_bounds tmp (i + -1) (tmp.height - 1 + -1) := by unfold in_bounds; omega
  have b2 : in_bounds tmp (i + -1) (tmp.height - 1 + (-1 + 1)) := by unfold in_bounds; omega
  have b3 : ¬ in_bounds tmp (i + -1) (tmp.height - 1 + (-1 + 1 + 1)) := by
    unfold in_bounds; omega
  have e1 : i + -1 = i - 1 := by omega
  have e2 : tmp.height - 1 + (-1 + 1 + 1) = tmp.height := by omega
  unfold kernel_sums
  simp only [for_loop, get_pixel, b1, b2, b3, if_true, if_false]
  rw [e1, e2]

/-- The kernel at a pixel of the last column reads to the right of the picture. -/
theorem kernel_sums_last_column (tmp : picture) (j : Int)
    (hj : 1 ≤ j) (hj2 : j ≤ tmp.height - 2) (hw : 2 ≤ tmp.width) :
    kernel_sums tmp (tmp.width - 1) j = .error (.get tmp.width (j - 1)) := by
  have b1 : in_bounds tmp (tmp.width - 1 + -1) (j + -1) := by unfold in_bounds; omega
  have b2 : in_bounds tmp (tmp.width - 1 + -1) (j + (-1 + 1)) := by unfold in_bounds; omega
  have b3 : in_bounds tmp (tmp.width - 1 + -1) (j + (-1 + 1 + 1)) := by unfold in_bounds; omega
  have b4 : in_bounds tmp (tmp.width - 1 + (-1 + 1)) (j + -1) := by unfold in_bounds; omega
  have b5 : in_bounds tmp (tmp.width - 1 + (-1 + 1)) (j + (-1 + 1)) := by
    unfold in_bounds; omega
  have b6 : in_bounds tmp (tmp.width - 1 + (-1 + 1)) (j + (-1 + 1 + 1)) := by
    unfold in_bounds; omega
  have b7 : ¬ in_bounds tmp (tmp.width - 1 + (-1 + 1 + 1)) (j + -1) := by
    unfold in_bounds; omega
  have e1 : tmp.width - 1 + (-1 + 1 + 1) = tmp.width := by omega
  have e2 : j + -1 = j - 1 := by omega
  unfold kernel_sums
  simp only [for_loop, get_pixel, b1, b2, b3, b4, b5, b6, b7, if_true, if_false]
  rw [e1, e2]

/-- A loop down a column that reaches the last row stops at the read below the
picture. -/
theorem column_loop_last_row (tmp : picture) (i : Int) (hi : 1 ≤ i) (hi2 : i ≤ tmp.width - 2)
    (n : Nat) : ∀ (y0 : Int) (q : picture), q.width = tmp.width → q.height = tmp.height →
      1 ≤ y0 → y0 ≤ tmp.height - 1 → tmp.height ≤ y0 + n →
      for_loop y0 n (fun j p => blur_pixel_at tmp i j p) q =
        .error (.get (i - 1) tmp.height) := by
  induction n with
  | zero => intro y0 q _ _ _ h1 h2; exfalso; simp at h2; omega
  | succ k ih =>
    intro y0 q hw hh hy hy1 hy2
    simp only [for_loop]
    by_cases hlast : y0 = tmp.height - 1
    · subst hlast
      unfold blur_pixel_at
      rw [kernel_sums_last_row tmp i hi (by omega) (by omega)]
    · rw [blur_pixel_at_interior tmp q i y0 hw hh hi hi2 hy (by omega)]
      exact ih (y0 + 1)
        { q with img := fun a b => if a = i ∧ b = y0 then box_average tmp i y0 else q.img a b }
        hw hh (by omega) (by omega) (by push_cast at hy2; omega)

/-- A loop over the columns of a band of interior rows that reaches the last
column stops at the read to the right of the picture. -/
theorem region_loop_last_column (tmp : picture) (y0 : Int) (m : Nat) (hy : 1 ≤ y0)
    (hm : 1 ≤ m) (hy2 : y0 + m ≤ tmp.height - 1)
    (n : Nat) : ∀ (x0 : Int) (q : picture), q.width = tmp.width → q.height = tmp.height →
      1 ≤ x0 → x0 ≤ tmp.width - 1 → tmp.width ≤ x0 + n →
      for_loop x0 n (fun i p => for_loop y0 m (fun j r => blur_pixel_at tmp i j r) p) q =
        .error (.get tmp.width (y0 - 1)) := by
  induction n with
  | zero => intro x0 q _ _ _ h1 h2; exfalso; simp at h2; omega
  | succ k ih =>
    intro x0 q hw hh hx hx1 hx2
    simp only [for_loop]
    by_cases hlast : x0 = tmp.width - 1
    · subst hlast
      obtain ⟨m1, rfl⟩ : ∃ m1, m = m1 + 1 := ⟨m - 1, by omega⟩
      simp only [for_loop]
      unfold blur_pixel_at
      rw [kernel_sums_last_column tmp y0 hy (by push_cast at hy2; omega) (by omega)]
    · rw [column_loop_interior tmp x0 m y0 q hw hh
        (fun b hb1 hb2 => by unfold interior; omega)]
      exact ih (x0 + 1)
        { q with img := fun a b =>
            if a = x0 ∧ y0 ≤ b ∧ b < y0 + m then box_average tmp a b else q.img a b }
        hw hh (by omega) (by omega) (by push_cast at hx2; omega)

/-- On every picture at least 3 by 3, `blur_seq` stops at the read of
`(0, height)`, below the picture. -/
theorem blur_seq_fault (pic : picture) (hw : 3 ≤ pic.width) (hh : 3 ≤ pic.height) :
    blur_seq pic = .error (.get 0 pic.height) := by
  unfold blur_seq blur_picture_section blur_seq_args copy_image
  simp only
  obtain ⟨k, hk⟩ : ∃ k, (pic.width + 1 - 1).toNat = k + 1 :=
    ⟨(pic.width + 1 - 1).toNat - 1, by omega⟩
  rw [hk]
  simp only [for_loop]
  rw [column_loop_last_row pic 1 (le_refl _) (by omega) _ 1 pic rfl rfl (le_refl _) (by omega)
    (by omega)]
  rfl

/-- On every picture at least 3 by 3, `blur_by_column` stops in its first task,
at the read of `(0, height)`. -/
theorem blur_by_column_fault (pic : picture) (hw : 3 ≤ pic.width) (hh : 3 ≤ pic.height) :
    blur_by_column pic = .error (.get 0 pic.height) := by
  unfold blur_by_column
  obtain ⟨k, hk⟩ : ∃ k, (pic.width - 2 - 0).toNat = k + 1 :=
    ⟨(pic.width - 2 - 0).toNat - 1, by omega⟩
  rw [hk]
  simp only [for_loop]
  have : blur_picture_section (blur_by_column_args pic 0) pic = .error (.get 0 pic.height) := by
    unfold blur_picture_section blur_by_column_args copy_image
    simp only
    have e : ((1 : Int) + (0 + 1) - (0 + 1)).toNat = 1 := by decide
    rw [e]
    simp only [for_loop]
    rw [column_loop_last_row pic (0 + 1) (by omega) (by omega) _ 1 pic rfl rfl (le_refl _)
      (by omega) (by omega)]
    rfl
  rw [this]

/-- On every picture at least 3 by 3, `blur_by_row` stops in its first task, at
the read of `(width, 0)`, to the right of the picture. -/
theorem blur_by_row_fault (pic : picture) (hw : 3 ≤ pic.width) (hh : 3 ≤ pic.height) :
    blur_by_row pic = .error (.get pic.width 0) := by
  unfold blur_by_row
  obtain ⟨k, hk⟩ : ∃ k, (pic.height - 2 - 0).toNat = k + 1 :=
    ⟨(pic.height - 2 - 0).toNat - 1, by omega⟩
  rw [hk]
  simp only [for_loop]
  have : blur_picture_section (blur_by_row_args pic 0) pic = .error (.get pic.width 0) := by
    unfold blur_picture_section blur_by_row_args copy_image
    simp only
    have e : ((1 : Int) + (0 + 1) - (0 + 1)).toNat = 1 := by decide
    rw [e]
    rw [region_loop_last_column pic (0 + 1) 1 (by omega) (le_refl _) (by push_cast; omega) _ 1
      pic rfl rfl (le_refl _) (by omega) (by omega)]
    rfl
  rw [this]

/-- On every picture at least 3 by 3, `blur_by_sector` stops at a read outside
the picture: that of `blur_seq` when the interior height is below 4, the read of
`(width, 0)` in its first task otherwise. -/
theorem blur_by_sector_fault (pic : picture) (hw : 3 ≤ pic.width) (hh : 3 ≤ pic.height) :
    blur_by_sector pic =
      .error (if pic.height - 2 < 4 then .get 0 pic.height else .get pic.width 0) := by
  unfold blur_by_sector
  by_cases h4 : pic.height - 2 < 4
  · have hs : sectors_height pic = 0 := by
      unfold sectors_height NUM_OF_SECTORS
      have : pic.height = 3 ∨ pic.height = 4 ∨ pic.height = 5 := by omega
      rcases this with e | e | e <;> rw [e] <;> rfl
    rw [if_pos hs, if_pos h4]
    exact blur_seq_fault pic hw hh
  · have hd : sectors_height pic = (pic.height - 2) / 4 :=
      Int.tdiv_eq_ediv (by omega) (by decide)
    rw [if_neg (by rw [hd]; omega), if_neg h4]
    unfold blur_by_sector_args run_tasks
    have : blur_picture_section
        { startX := 1, startY := sectors_height pic * 0 + 1, width := pic.width,
          height := sectors_height pic, next := none } pic = .error (.get pic.width 0) := by
      unfold blur_picture_section copy_image
      simp only
      rw [region_loop_last_column pic (sectors_height pic * 0 + 1) _ (by omega)
        (by rw [hd]; omega) (by rw [hd]; omega) _ 1 pic rfl rfl (le_refl _) (by omega) (by omega)]
      simp
    rw [this]

/-! ## The job queue -/

/-- Only the `next` links of the jobs of the list matter to `chain`. -/
theorem chain_congr (args1 args2 : Nat → blur_args) (l : List Nat) :
    ∀ front, (∀ a ∈ l, (args1 a).next = (args2 a).next) →
      chain args1 front l → chain args2 front l := by
  induction l with
  | nil => intro front _ h; exact h
  | cons a t ih =>
    intro front hsame h
    obtain ⟨h1, h2⟩ := h
    refine ⟨h1, ?_⟩
    rw [← hsame a (List.mem_cons_self a t)]
    exact ih _ (fun b hb => hsame b (List.mem_cons_of_mem a hb)) h2

theorem set_next_other (args : Nat → blur_args) (a b : Nat) (nxt : Option Nat) (h : b ≠ a) :
    set_next args a nxt b = args b := by
  unfold set_next
  rw [if_neg h]

theorem set_next_same (args : Nat → blur_args) (a : Nat) (nxt : Option Nat) :
    (set_next args a nxt a).next = nxt := by
  unfold set_next
  rw [if_pos rfl]

/-- A job's region is not touched by `set_next`. -/
theorem set_next_region (args : Nat → blur_args) (a b : Nat) (nxt : Option Nat) :
    (set_next args a nxt b).startX = (args b).startX ∧
    (set_next args a nxt b).startY = (args b).startY ∧
    (set_next args a nxt b).width = (args b).width ∧
    (set_next args a nxt b).height = (args b).height := by
  unfold set_next
  by_cases h : b = a
  · rw [if_pos h, h]; exact ⟨rfl, rfl, rfl, rfl⟩
  · rw [if_neg h]; exact ⟨rfl, rfl, rfl, rfl⟩

theorem init_queue_holds (st : job_state) : holds (init_queue st) [] :=
  ⟨rfl, rfl, List.nodup_nil⟩

theorem init_queue_args (st : job_state) : (init_queue st).args = st.args := rfl

/-- Pushing a job that is not in the queue and whose `next` is `NULL` puts it in
front. -/
theorem push_job_holds (st : job_state) (l : List Nat) (a : Nat)
    (h : holds st l) (ha : a ∉ l) (hn : (st.args a).next = none) :
    holds (push_job a st) (a :: l) := by
  obtain ⟨hc, hlen, hnd⟩ := h
  unfold push_job
  by_cases h0 : st.job_queue.len = 0
  · rw [if_pos h0]
    have hl : l = [] := by
      cases l with
      | nil => rfl
      | cons b t => rw [h0] at hlen; simp at hlen; omega
    subst hl
    refine ⟨⟨rfl, hn⟩, ?_, List.nodup_singleton a⟩
    simp [h0]
  · rw [if_neg h0]
    refine ⟨⟨rfl, ?_⟩, ?_, List.nodup_cons.mpr ⟨ha, hnd⟩⟩
    · show chain (set_next st.args a st.job_queue.front)
        (set_next st.args a st.job_queue.front a).next l
      rw [set_next_same]
      refine chain_congr st.args _ l _ (fun b hb => ?_) hc
      rw [set_next_other]
      intro hba
      exact ha (hba ▸ hb)
    · show st.job_queue.len + 1 = ((a :: l).length : Int)
      rw [hlen]; simp

/-- The `next` links `push_job a` leaves alone: those of the other jobs. -/
theorem push_job_next_other (st : job_state) (a b : Nat) (h : b ≠ a) :
    ((push_job a st).args b).next = (st.args b).next := by
  unfold push_job
  by_cases h0 : st.job_queue.len = 0
  · rw [if_pos h0]
  · rw [if_neg h0]
    show (set_next st.args a st.job_queue.front b).next = _
    rw [set_next_other _ _ _ _ h]

theorem push_job_region (st : job_state) (a b : Nat) :
    ((push_job a st).args b).startX = (st.args b).startX ∧
    ((push_job a st).args b).startY = (st.args b).startY ∧
    ((push_job a st).args b).width = (st.args b).width ∧
    ((push_job a st).args b).height = (st.args b).height := by
  unfold push_job
  by_cases h0 : st.job_queue.len = 0
  · rw [if_pos h0]; exact ⟨rfl, rfl, rfl, rfl⟩
  · rw [if_neg h0]; exact set_next_region _ _ _ _

/-- On an empty queue `pop_job` returns `NULL` and changes nothing. -/
theorem pop_job_empty (st : job_state) (h : holds st []) : pop_job st = .ok (none, st) := by
  unfold pop_job
  rw [if_pos (by simpa using h.2.1)]

/-- On a queue with front job `a`, `pop_job` returns `a` and leaves the rest. -/
theorem pop_job_holds (st : job_state) (a : Nat) (t : List Nat) (h : holds st (a :: t)) :
    ∃ st1, pop_job st = .ok (some a, st1) ∧ holds st1 t ∧
      st1.args = set_next st.args a none := by
  obtain ⟨⟨hf, hc⟩, hlen, hnd⟩ := h
  have h0 : st.job_queue.len ≠ 0 := by rw [hlen]; simp; omega
  unfold pop_job
  rw [if_neg h0, hf]
  refine ⟨_, rfl, ⟨?_, ?_, (List.nodup_cons.mp hnd).2⟩, rfl⟩
  · refine chain_congr st.args _ t _ (fun b hb => ?_) hc
    show (st.args b).next = (set_next st.args a none b).next
    rw [set_next_other]
    intro hba
    exact (List.nodup_cons.mp hnd).1 (hba ▸ hb)
  · show st.job_queue.len - 1 = (t.length : Int)
    rw [hlen]; simp

/-- Popping until `NULL` hands out the jobs of the queue from the front on and
leaves the queue empty, whatever the bound on the rounds, if it is large enough. -/
theorem pop_until_null_holds (l : List Nat) :
    ∀ (st : job_state), holds st l →
      ∃ st1, holds st1 [] ∧
        ∀ fuel, l.length + 1 ≤ fuel → pop_until_null fuel st = .ok (l, st1) := by
  induction l with
  | nil =>
    intro st h
    refine ⟨st, h, fun fuel hf => ?_⟩
    obtain ⟨n, rfl⟩ : ∃ n, fuel = n + 1 := ⟨fuel - 1, by simp at hf; omega⟩
    simp only [pop_until_null, pop_job_empty st h]
  | cons a t ih =>
    intro st h
    obtain ⟨st1, hp, hh, _⟩ := pop_job_holds st a t h
    obtain ⟨st2, hh2, hp2⟩ := ih st1 hh
    refine ⟨st2, hh2, fun fuel hf => ?_⟩
    obtain ⟨n, rfl⟩ : ∃ n, fuel = n + 1 := ⟨fuel - 1, by simp at hf; omega⟩
    simp only [pop_until_null, hp, hp2 n (by simp at hf ⊢; omega)]

/-- As many pops as the queue has jobs return the jobs from the front on. -/
theorem pop_n_holds (l : List Nat) :
    ∀ (st : job_state), holds st l →
      ∃ st1, pop_n l.length st = .ok (l.map some, st1) ∧ holds st1 [] := by
  induction l with
  | nil =>
    intro st h
    exact ⟨st, rfl, h⟩
  | cons a t ih =>
    intro st h
    obtain ⟨st1, hp, hh, _⟩ := pop_job_holds st a t h
    obtain ⟨st2, hp2, hh2⟩ := ih st1 hh
    refine ⟨st2, ?_, hh2⟩
    simp only [List.length_cons, pop_n, hp, hp2, List.map_cons]

/-- Pushing distinct jobs with `next = NULL` leaves them in the queue, the last
one pushed in front. -/
theorem push_all_holds (js : List Nat) :
    ∀ (st : job_state) (l : List Nat), holds st l → js.Nodup → (∀ j ∈ js, j ∉ l) →
      (∀ j ∈ js, (st.args j).next = none) → holds (push_all js st) (js.reverse ++ l) := by
  induction js with
  | nil =>
    intro st l h _ _ _
    simpa [push_all] using h
  | cons a t ih =>
    intro st l h hnd hnot hnext
    have hnd2 := List.nodup_cons.mp hnd
    have h1 : holds (push_job a st) (a :: l) :=
      push_job_holds st l a h (hnot a (List.mem_cons_self a t)) (hnext a (List.mem_cons_self a t))
    have h2 := ih (push_job a st) (a :: l) h1 hnd2.2
      (fun j hj hmem => by
        rcases List.mem_cons.mp hmem with e | e
        · exact hnd2.1 (e ▸ hj)
        · exact hnot j (List.mem_cons_of_mem a hj) e)
      (fun j hj => by
        rw [push_job_next_other st a j (fun e => hnd2.1 (e ▸ hj))]
        exact hnext j (List.mem_cons_of_mem a hj))
    simpa [push_all] using h2

/-! ## The jobs of the pixel strategy -/

theorem row_pixels_length (k : Int) (n : Nat) : ∀ j0, (row_pixels k j0 n).length = n := by
  induction n with
  | zero => intro j0; rfl
  | succ n1 ih => intro j0; simp [row_pixels, ih]

theorem mem_row_pixels (k : Int) (n : Nat) (x y : Int) :
    ∀ j0, (x, y) ∈ row_pixels k j0 n ↔ y = k ∧ j0 ≤ x ∧ x < j0 + n := by
  induction n with
  | zero => intro j0; simp [row_pixels]
  | succ n1 ih =>
    intro j0
    simp only [row_pixels, List.mem_cons, Prod.mk.injEq, ih]
    push_cast
    omega

theorem row_pixels_nodup (k : Int) (n : Nat) : ∀ j0, (row_pixels k j0 n).Nodup := by
  induction n with
  | zero => intro j0; exact List.nodup_nil
  | succ n1 ih =>
    intro j0
    simp only [row_pixels]
    refine List.nodup_cons.mpr ⟨?_, ih _⟩
    rw [mem_row_pixels]
    omega

theorem grid_pixels_length (j0 : Int) (n : Nat) (m : Nat) :
    ∀ k0, (grid_pixels j0 n k0 m).length = m * n := by
  induction m with
  | zero => intro k0; simp [grid_pixels]
  | succ m1 ih =>
    intro k0
    simp only [grid_pixels, List.length_append, row_pixels_length, ih]
    ring

theorem mem_grid_pixels (j0 : Int) (n : Nat) (m : Nat) (x y : Int) :
    ∀ k0, (x, y) ∈ grid_pixels j0 n k0 m ↔
      (j0 ≤ x ∧ x < j0 + n) ∧ k0 ≤ y ∧ y < k0 + m := by
  induction m with
  | zero => intro k0; simp [grid_pixels]
  | succ m1 ih =>
    intro k0
    simp only [grid_pixels, List.mem_append, mem_row_pixels, ih]
    push_cast
    omega

theorem grid_pixels_nodup (j0 : Int) (n : Nat) (m : Nat) :
    ∀ k0, (grid_pixels j0 n k0 m).Nodup := by
  induction m with
  | zero => intro k0; exact List.nodup_nil
  | succ m1 ih =>
    intro k0
    simp only [grid_pixels]
    refine List.nodup_append.mpr ⟨row_pixels_nodup _ _ _, ih _, ?_⟩
    intro p hp hq
    obtain ⟨x, y⟩ := p
    rw [mem_row_pixels] at hp
    rw [mem_grid_pixels] at hq
    omega

/-- One round of the loops of `initialize_args` adds the job of pixel `(j, k)`. -/
theorem initialize_one_inv (k j : Int) (s : init_state) (done : List (Int × Int))
    (h : init_inv s done) : init_inv (initialize_one k j s) (done ++ [(j, k)]) := by
  obtain ⟨hi, hh, hr⟩ := h
  have hnot : s.i ∉ (List.range s.i).reverse := by simp
  have hh1 : holds
      ({ s.st with args := fun b =>
          if b = s.i then
            { startX := j, startY := k, width := 1, height := 1, next := none }
          else s.st.args b } : job_state) (List.range s.i).reverse := by
    refine ⟨chain_congr s.st.args _ _ _ (fun b hb => ?_) hh.1, hh.2.1, hh.2.2⟩
    have : b ≠ s.i := fun e => hnot (e ▸ hb)
    simp only [this, if_false]
  have hh2 := push_job_holds _ _ s.i hh1 hnot (by simp)
  refine ⟨?_, ?_, ?_⟩
  · simp [initialize_one, hi]
  · unfold initialize_one
    simp only [List.range_succ, List.reverse_append, List.reverse_cons, List.reverse_nil,
      List.nil_append, List.singleton_append]
    exact hh2
  · unfold initialize_one
    simp only [List.range_succ, List.map_append, List.map_cons, List.map_nil]
    congr 1
    · rw [← hr]
      refine List.map_congr_left (fun b hb => ?_)
      have hb1 : b ≠ s.i := by
        have := List.mem_range.mp hb
        omega
      obtain ⟨e1, e2, e3, e4⟩ := push_job_region
        ({ s.st with args := fun b =>
          if b = s.i then
            { startX := j, startY := k, width := 1, height := 1, next := none }
          else s.st.args b } : job_state) s.i b
      unfold job_region
      rw [e1, e2, e3, e4]
      simp only [hb1, if_false]
    · obtain ⟨e1, e2, e3, e4⟩ := push_job_region
        ({ s.st with args := fun b =>
          if b = s.i then
            { startX := j, startY := k, width := 1, height := 1, next := none }
          else s.st.args b } : job_state) s.i s.i
      unfold job_region
      rw [e1, e2, e3, e4]
      simp

/-- The inner loop of `initialize_args` adds the jobs of one row. -/
theorem initialize_row_inv (k : Int) (n : Nat) :
    ∀ (j0 : Int) (s : init_state) (done : List (Int × Int)), init_inv s done →
      ∃ s1, for_loop j0 n (fun j s2 => .ok (initialize_one k j s2)) s = .ok s1 ∧
        init_inv s1 (done ++ row_pixels k j0 n) := by
  induction n with
  | zero =>
    intro j0 s done h
    exact ⟨s, rfl, by simpa [row_pixels] using h⟩
  | succ n1 ih =>
    intro j0 s done h
    obtain ⟨s1, h1, h2⟩ := ih (j0 + 1) (initialize_one k j0 s) _ (initialize_one_inv k j0 s done h)
    refine ⟨s1, ?_, ?_⟩
    · simp only [for_loop]
      exact h1
    · simpa [row_pixels] using h2

/-- The loops of `initialize_args` add the jobs of all rows. -/
theorem initialize_grid_inv (j0 : Int) (n : Nat) (m : Nat) :
    ∀ (k0 : Int) (s : init_state) (done : List (Int × Int)), init_inv s done →
      ∃ s1, for_loop k0 m (fun k s2 =>
          for_loop j0 n (fun j s3 => .ok (initialize_one k j s3)) s2) s = .ok s1 ∧
        init_inv s1 (done ++ grid_pixels j0 n k0 m) := by
  induction m with
  | zero =>
    intro k0 s done h
    exact ⟨s, rfl, by simpa [grid_pixels] using h⟩
  | succ m1 ih =>
    intro k0 s done h
    obtain ⟨s1, h1, h2⟩ := initialize_row_inv k0 n j0 s done h
    obtain ⟨s2, h3, h4⟩ := ih (k0 + 1) s1 _ h2
    refine ⟨s2, ?_, ?_⟩
    · simp only [for_loop, h1]
      exact h3
    · simpa [grid_pixels] using h4

/-- The state `initialize_args` leaves when it starts on an empty queue. -/
theorem initialize_args_inv (pic : picture) (st : job_state) (h : holds st []) :
    ∃ s1 : init_state, initialize_args pic st = s1.st ∧
      init_inv s1 (grid_pixels 1 ((pic.width - 1) - 1).toNat 1 ((pic.height - 1) - 1).toNat) := by
  obtain ⟨s1, h1, h2⟩ := initialize_grid_inv 1 ((pic.width - 1) - 1).toNat
    ((pic.height - 1) - 1).toNat 1 ⟨0, st⟩ [] ⟨rfl, h, rfl⟩
  refine ⟨s1, ?_, by simpa using h2⟩
  unfold initialize_args
  rw [h1]

/-! ## The worker loop of the pixel strategy -/

/-- Only the region fields of its argument matter to `blur_picture_section`. -/
theorem blur_picture_section_region (a : blur_args) (x y : Int) (pic : picture)
    (h : (a.startX, a.startY, a.width, a.height) = (x, y, 1, 1)) :
    blur_picture_section a pic = blur_picture_section (pixel_region x y) pic := by
  simp only [Prod.mk.injEq] at h
  obtain ⟨h1, h2, h3, h4⟩ := h
  unfold blur_picture_section pixel_region
  simp only [h1, h2, h3, h4]

theorem blur_pixels_width (ps : List (Int × Int)) :
    ∀ pic, (blur_pixels ps pic).width = pic.width := by
  induction ps with
  | nil => intro pic; rfl
  | cons p t ih => intro pic; exact ih _

theorem blur_pixels_height (ps : List (Int × Int)) :
    ∀ pic, (blur_pixels ps pic).height = pic.height := by
  induction ps with
  | nil => intro pic; rfl
  | cons p t ih => intro pic; exact ih _

/-- A worker drains a queue of 1 by 1 jobs of interior pixels: it returns, the
queue is empty, and the picture is the one `blur_pixels` describes. -/
theorem thread_work_loop_holds (l : List Nat) :
    ∀ (ps : List (Int × Int)) (st : job_state) (pic : picture) (fuel : Nat),
      holds st l → l.length + 1 ≤ fuel →
      l.map (job_region st) = ps.map (fun p => (p.1, p.2, 1, 1)) →
      (∀ p ∈ ps, interior pic p.1 p.2) →
      ∃ st1, thread_work_loop fuel st pic = .ok (st1, blur_pixels ps pic) ∧ holds st1 [] := by
  induction l with
  | nil =>
    intro ps st pic fuel h hf hr _
    obtain ⟨n, rfl⟩ : ∃ n, fuel = n + 1 := ⟨fuel - 1, by simp at hf; omega⟩
    have hps : ps = [] := by
      cases ps with
      | nil => rfl
      | cons p t => simp at hr
    subst hps
    refine ⟨st, ?_, h⟩
    simp only [thread_work_loop, pop_job_empty st h]
    rfl
  | cons a t ih =>
    intro ps st pic fuel h hf hr hint
    obtain ⟨n, rfl⟩ : ∃ n, fuel = n + 1 := ⟨fuel - 1, by simp at hf; omega⟩
    obtain ⟨p, ps1, rfl⟩ : ∃ p ps1, ps = p :: ps1 := by
      cases ps with
      | nil => simp at hr
      | cons p t1 => exact ⟨p, t1, rfl⟩
    simp only [List.map_cons, List.cons.injEq] at hr
    obtain ⟨hra, hrt⟩ := hr
    obtain ⟨st1, hp, hh, hargs⟩ := pop_job_holds st a t h
    have hnot : a ∉ t := (List.nodup_cons.mp h.2.2).1
    have hreg : ∀ b, job_region st1 b = job_region st b := by
      intro b
      obtain ⟨e1, e2, e3, e4⟩ := set_next_region st.args a b none
      unfold job_region
      rw [hargs, e1, e2, e3, e4]
    have hpi : within_interior (pixel_region p.1 p.2) pic := by
      have := hint p (List.mem_cons_self p ps1)
      simp only [interior] at this
      simp only [within_interior, pixel_region]
      omega
    have hblur : blur_picture_section (st1.args a) pic =
        .ok (blurred_in pic (pixel_region p.1 p.2) pic) := by
      rw [blur_picture_section_region (st1.args a) p.1 p.2 pic (by
        have := hreg a
        unfold job_region at this
        rw [this]
        exact hra)]
      exact blur_picture_section_interior _ pic hpi
    obtain ⟨st2, hw2, hh2⟩ := ih ps1 st1 (blurred_in pic (pixel_region p.1 p.2) pic) n hh
      (by simp at hf ⊢; omega)
      (by rw [← hrt]; exact List.map_congr_left (fun b _ => hreg b))
      (fun q hq => hint q (List.mem_cons_of_mem p hq))
    refine ⟨st2, ?_, hh2⟩
    simp only [thread_work_loop, hp, hblur, hw2]
    rfl

/-- A worker that finds the queue empty changes nothing; so do any number of
workers run after the queue was drained. -/
theorem workers_on_empty_queue (n : Nat) :
    ∀ (lo : Int) (st : job_state) (pic : picture), holds st [] →
      for_loop lo n (fun _ (s : job_state × picture) => thread_work s.1 s.2) (st, pic) =
        .ok (st, pic) := by
  induction n with
  | zero => intro lo st pic _; rfl
  | succ k ih =>
    intro lo st pic h
    have h0 : st.job_queue.len = 0 := by simpa using h.2.1
    have : thread_work st pic = .ok (st, pic) := by
      unfold thread_work
      rw [h0]
      show thread_work_loop 1 st pic = _
      simp only [thread_work_loop, pop_job_empty st h]
    simp only [for_loop, this]
    exact ih _ st pic h

/-- On every picture at least 3 by 3 `blur_by_pixel` returns: the picture with the
interior pixels blurred one after another, the last one enumerated first. -/
theorem blur_by_pixel_returns (mem : Nat → blur_args) (pic : picture)
    (hw : 3 ≤ pic.width) (hh : 3 ≤ pic.height) :
    blur_by_pixel mem pic = .ok (blur_pixels
      (grid_pixels 1 ((pic.width - 1) - 1).toNat 1 ((pic.height - 1) - 1).toNat).reverse pic) := by
  unfold blur_by_pixel
  simp only
  obtain ⟨s1, hs, hi, hq, hr⟩ := initialize_args_inv pic
    (init_queue { args := mem, job_queue := { front := none, len := 0 } }) (init_queue_holds _)
  rw [hs]
  obtain ⟨k, hk⟩ : ∃ k, NUM_OF_THREADS = k + 1 := ⟨99, rfl⟩
  rw [hk]
  simp only [for_loop]
  have hlen : s1.st.job_queue.len.toNat + 1 = (List.range s1.i).reverse.length + 1 := by
    rw [hq.2.1]; simp
  obtain ⟨st1, hw1, hh1⟩ := thread_work_loop_holds (List.range s1.i).reverse
    (grid_pixels 1 ((pic.width - 1) - 1).toNat 1 ((pic.height - 1) - 1).toNat).reverse
    s1.st pic (s1.st.job_queue.len.toNat + 1) hq (by omega)
    (by rw [List.map_reverse, hr, List.map_reverse])
    (fun p hp => by
      obtain ⟨x, y⟩ := p
      rw [List.mem_reverse, mem_grid_pixels] at hp
      simp only [interior]
      omega)
  have ht : thread_work s1.st pic = .ok (st1, blur_pixels
      (grid_pixels 1 ((pic.width - 1) - 1).toNat 1 ((pic.height - 1) - 1).toNat).reverse pic) :=
    hw1
  simp only [ht]
  rw [workers_on_empty_queue k _ st1 _ hh1]

/-- A pixel that is not in the list is left as it was. -/
theorem blur_pixels_outside (x y : Int) (ps : List (Int × Int)) :
    ∀ pic, (x, y) ∉ ps → (blur_pixels ps pic).img x y = pic.img x y := by
  induction ps with
  | nil => intro pic _; rfl
  | cons p t ih =>
    intro pic hn
    have h1 : (x, y) ≠ p := fun e => hn (e ▸ List.mem_cons_self p t)
    have h2 : (x, y) ∉ t := fun e => hn (List.mem_cons_of_mem p e)
    show (blur_pixels t (blurred_in pic (pixel_region p.1 p.2) pic)).img x y = _
    rw [ih _ h2]
    have h3 : ¬ in_region (pixel_region p.1 p.2) x y := by
      intro hr
      simp only [in_region, pixel_region] at hr
      apply h1
      have hx : x = p.1 := by omega
      have hy : y = p.2 := by omega
      rw [hx, hy]
    simp only [blurred_in, h3, if_false]

/-- A successful `pop_job` changes nothing in the array of jobs but the `next`
link of the job it returns. -/
theorem pop_job_args (st st1 : job_state) (a : Nat) (h : pop_job st = .ok (some a, st1)) :
    st1.args = set_next st.args a none := by
  unfold pop_job at h
  by_cases h0 : st.job_queue.len = 0
  · rw [if_pos h0] at h
    simp only [Except.ok.injEq, Prod.mk.injEq] at h
    exact absurd h.1 (by simp)
  · rw [if_neg h0] at h
    cases hf : st.job_queue.front with
    | none => rw [hf] at h; cases h
    | some b =>
      rw [hf] at h
      simp only [Except.ok.injEq, Prod.mk.injEq, Option.some.injEq] at h
      rw [← h.2, h.1]

/-- Only the region fields of its argument matter to `blur_picture_section`. -/
theorem blur_picture_section_same_region (a b : blur_args) (pic : picture)
    (h : (a.startX, a.startY, a.width, a.height) = (b.startX, b.startY, b.width, b.height)) :
    blur_picture_section a pic = blur_picture_section b pic := by
  simp only [Prod.mk.injEq] at h
  obtain ⟨h1, h2, h3, h4⟩ := h
  unfold blur_picture_section
  simp only [h1, h2, h3, h4]

/-- Running the tasks of a list of jobs depends on the regions of the jobs only. -/
theorem run_tasks_same_regions (st st1 : job_state)
    (h : ∀ b, job_region st1 b = job_region st b) (jobs : List Nat) :
    ∀ pic, run_tasks (jobs.map st1.args) pic = run_tasks (jobs.map st.args) pic := by
  induction jobs with
  | nil => intro pic; rfl
  | cons a t ih =>
    intro pic
    simp only [List.map_cons, run_tasks]
    rw [blur_picture_section_same_region (st1.args a) (st.args a) pic (h a)]
    cases blur_picture_section (st.args a) pic with
    | ok p => exact ih p
    | error e => rfl

/-- The worker loop of `thread_work` is handed exactly the jobs that popping until
`NULL` returns, in that order: it leaves the queue as those pops leave it, and
the picture as `blur_picture_section`, run on these jobs one after another,
leaves it. -/
theorem thread_work_loop_pops (fuel : Nat) :
    ∀ (st : job_state) (pic : picture) (jobs : List Nat) (st1 : job_state) (out : picture),
      pop_until_null fuel st = .ok (jobs, st1) →
      run_tasks (jobs.map st.args) pic = .ok out →
      thread_work_loop fuel st pic = .ok (st1, out) := by
  induction fuel with
  | zero =>
    intro st pic jobs st1 out hp _
    simp only [pop_until_null] at hp
    cases hp
  | succ n ih =>
    intro st pic jobs st1 out hp hr
    simp only [pop_until_null] at hp
    simp only [thread_work_loop]
    cases hpop : pop_job st with
    | error e => rw [hpop] at hp; cases hp
    | ok r =>
      obtain ⟨o, st2⟩ := r
      rw [hpop] at hp
      cases o with
      | none =>
        simp only [Except.ok.injEq, Prod.mk.injEq] at hp
        obtain ⟨hj, hs⟩ := hp
        subst hj
        subst hs
        simp only [List.map_nil, run_tasks, Except.ok.injEq] at hr
        rw [hr]
      | some a =>
        simp only at hp
        cases hrest : pop_until_null n st2 with
        | error e => rw [hrest] at hp; cases hp
        | ok r2 =>
          obtain ⟨l, st3⟩ := r2
          rw [hrest] at hp
          simp only [Except.ok.injEq, Prod.mk.injEq] at hp
          obtain ⟨hj, hs⟩ := hp
          subst hj
          subst hs
          have hargs := pop_job_args st st2 a hpop
          have hreg : ∀ b, job_region st2 b = job_region st b := by
            intro b
            obtain ⟨e1, e2, e3, e4⟩ := set_next_region st.args a b none
            unfold job_region
            rw [hargs, e1, e2, e3, e4]
          simp only [List.map_cons, run_tasks] at hr
          simp only
          rw [blur_picture_section_same_region (st2.args a) (st.args a) pic (hreg a)]
          cases hb : blur_picture_section (st.args a) pic with
          | error e => rw [hb] at hr; cases hr
          | ok p =>
            rw [hb] at hr
            simp only
            exact ih st2 p l st3 out hrest
              ((run_tasks_same_regions st st2 hreg l p).trans hr)

/-- Running the 1 by 1 tasks of interior pixels one after another returns the
picture `blur_pixels` describes. -/
theorem run_tasks_pixel_jobs (st : job_state) (l : List Nat) :
    ∀ (ps : List (Int × Int)) (pic : picture),
      l.map (job_region st) = ps.map (fun p => (p.1, p.2, 1, 1)) →
      (∀ p ∈ ps, interior pic p.1 p.2) →
      run_tasks (l.map st.args) pic = .ok (blur_pixels ps pic) := by
  induction l with
  | nil =>
    intro ps pic hr _
    have hps : ps = [] := by
      cases ps with
      | nil => rfl
      | cons p t => simp at hr
    subst hps
    rfl
  | cons a t ih =>
    intro ps pic hr hint
    obtain ⟨p, ps1, rfl⟩ : ∃ p ps1, ps = p :: ps1 := by
      cases ps with
      | nil => simp at hr
      | cons p t1 => exact ⟨p, t1, rfl⟩
    simp only [List.map_cons, List.cons.injEq] at hr
    obtain ⟨hra, hrt⟩ := hr
    have hpi : within_interior (pixel_region p.1 p.2) pic := by
      have := hint p (List.mem_cons_self p ps1)
      simp only [interior] at this
      simp only [within_interior, pixel_region]
      omega
    simp only [List.map_cons, run_tasks]
    rw [blur_picture_section_region (st.args a) p.1 p.2 pic hra,
      blur_picture_section_interior _ pic hpi]
    exact ih ps1 (blurred_in pic (pixel_region p.1 p.2) pic) hrt
      (fun q hq => hint q (List.mem_cons_of_mem p hq))

/-- A worker that finds the queue empty returns at once and changes nothing. -/
theorem thread_work_empty (st : job_state) (pic : picture) (h : holds st []) :
    thread_work st pic = .ok (st, pic) := by
  have h0 : st.job_queue.len = 0 := by simpa using h.2.1
  unfold thread_work
  rw [h0]
  show thread_work_loop 1 st pic = _
  simp only [thread_work_loop, pop_job_empty st h]

/-! ## The properties of the specification -/

/-- C1: the five strategies do not leave the same interior pixels. On every
picture at least 3 by 3, `blur_seq`, `blur_by_column`, `blur_by_row` and
`blur_by_sector` stop at a `get_pixel` call outside the buffer, while
`blur_by_pixel` returns a picture. -/
theorem strategies_disagree (mem : Nat → blur_args) (pic : picture)
    (hw : 3 ≤ pic.width) (hh : 3 ≤ pic.height) :
    blur_seq pic = .error (.get 0 pic.height) ∧
    blur_by_column pic = .error (.get 0 pic.height) ∧
    blur_by_row pic = .error (.get pic.width 0) ∧
    blur_by_sector pic =
      .error (if pic.height - 2 < 4 then .get 0 pic.height else .get pic.width 0) ∧
    ∃ out, blur_by_pixel mem pic = .ok out ∧
      out.width = pic.width ∧ out.height = pic.height :=
  ⟨blur_seq_fault pic hw hh, blur_by_column_fault pic hw hh, blur_by_row_fault pic hw hh,
    blur_by_sector_fault pic hw hh, _, blur_by_pixel_returns mem pic hw hh,
    blur_pixels_width _ pic, blur_pixels_height _ pic⟩

/-- The 4 by 3 picture `spike`: four strategies stop, `blur_by_pixel` returns; the
pixel `(1, 1)` it returns is 1 per channel, not the average 10 of the source,
because the job of `(1, 1)` took its snapshot after `(2, 1)` was blurred. -/
theorem strategies_disagree_witness :
    (3 ≤ spike.width ∧ 3 ≤ spike.height) ∧
    (blur_seq spike = .error (.get 0 3) ∧
    blur_by_column spike = .error (.get 0 3) ∧
    blur_by_row spike = .error (.get 4 0) ∧
    blur_by_sector spike = .error (.get 0 3) ∧
    ∃ out, blur_by_pixel blank_jobs spike = .ok out ∧
      out.width = spike.width ∧ out.height = spike.height) ∧
    box_average spike 1 1 = ⟨10, 10, 10⟩ ∧
    ∃ out, blur_by_pixel blank_jobs spike = .ok out ∧
      out.img 1 1 = ⟨1, 1, 1⟩ ∧ out.img 2 1 = ⟨10, 10, 10⟩ :=
  ⟨by decide, strategies_disagree blank_jobs spike (by decide) (by decide), by decide,
    _, rfl, by decide, by decide⟩

/-- C2: the order of two calls of `blur_picture_section` on disjoint interior
regions matters. On `spike`, blurring `(1, 1)` and then `(2, 1)` leaves 10 and 11
there; blurring `(2, 1)` and then `(1, 1)` leaves 1 and 10. -/
theorem section_order_matters :
    within_interior (pixel_region 1 1) spike ∧ within_interior (pixel_region 2 1) spike ∧
    (∀ x y, ¬ (in_region (pixel_region 1 1) x y ∧ in_region (pixel_region 2 1) x y)) ∧
    ∃ p12 p21,
      run_tasks [pixel_region 1 1, pixel_region 2 1] spike = .ok p12 ∧
      run_tasks [pixel_region 2 1, pixel_region 1 1] spike = .ok p21 ∧
      p12.img 1 1 = ⟨10, 10, 10⟩ ∧ p12.img 2 1 = ⟨11, 11, 11⟩ ∧
      p21.img 1 1 = ⟨1, 1, 1⟩ ∧ p21.img 2 1 = ⟨10, 10, 10⟩ ∧
      p12.img 1 1 ≠ p21.img 1 1 :=
  ⟨by decide, by decide, fun x y h => by simp only [in_region, pixel_region] at h; omega,
    _, _, rfl, rfl, by decide, by decide, by decide, by decide, by decide⟩

/-- C3: `blur_seq` does not return with the border intact. On every picture at
least 3 by 3 its region contains the border pixel `(1, height - 1)`, and the run
stops there, on the read of `(0, height)` below the picture; `blur_by_column`,
`blur_by_row` and `blur_by_sector` stop in the same way in their first task. Only
`blur_by_pixel` returns, with every border pixel as it was. -/
theorem blur_seq_reaches_border (mem : Nat → blur_args) (pic : picture)
    (hw : 3 ≤ pic.width) (hh : 3 ≤ pic.height) :
    in_region (blur_seq_args pic) 1 (pic.height - 1) ∧ border pic 1 (pic.height - 1) ∧
    blur_seq pic = .error (.get 0 pic.height) ∧
    blur_by_column pic = .error (.get 0 pic.height) ∧
    blur_by_row pic = .error (.get pic.width 0) ∧
    blur_by_sector pic =
      .error (if pic.height - 2 < 4 then .get 0 pic.height else .get pic.width 0) ∧
    ∃ out, blur_by_pixel mem pic = .ok out ∧
      ∀ x y, border pic x y → out.img x y = pic.img x y := by
  refine ⟨?_, ?_, blur_seq_fault pic hw hh, blur_by_column_fault pic hw hh,
    blur_by_row_fault pic hw hh, blur_by_sector_fault pic hw hh,
    _, blur_by_pixel_returns mem pic hw hh, ?_⟩
  · simp only [in_region, blur_seq_args]
    omega
  · exact ⟨⟨by omega, by omega, by omega, by omega⟩, Or.inr (Or.inr (Or.inr rfl))⟩
  · intro x y hb
    refine blur_pixels_outside x y _ pic ?_
    rw [List.mem_reverse, mem_grid_pixels]
    obtain ⟨hb1, hb2⟩ := hb
    simp only [in_bounds] at hb1
    omega

/-- The 3 by 3 picture `nine`: the border pixel `(1, 2)` is in the region of
`blur_seq`, which stops on the read of `(0, 3)`. -/
theorem blur_seq_reaches_border_witness :
    (3 ≤ nine.width ∧ 3 ≤ nine.height) ∧
    in_region (blur_seq_args nine) 1 2 ∧ border nine 1 2 ∧
    blur_seq nine = .error (.get 0 3) ∧
    blur_by_column nine = .error (.get 0 3) ∧
    blur_by_row nine = .error (.get 3 0) ∧
    blur_by_sector nine = .error (.get 0 3) ∧
    ∃ out, blur_by_pixel blank_jobs nine = .ok out ∧
      ∀ x y, border nine x y → out.img x y = nine.img x y :=
  ⟨by decide, blur_seq_reaches_border blank_jobs nine (by decide) (by decide)⟩

/-- C4: no region that `blur_seq`, `blur_by_column`, `blur_by_row` or
`blur_by_sector` hands to `blur_picture_section` lies within the interior: each is
as wide or as high as the whole picture. On every picture at least 3 by 3 the
kernel then calls `get_pixel` outside the buffer: at `(0, height)` in `blur_seq`
and `blur_by_column`, at `(width, 0)` in `blur_by_row`. -/
theorem strategy_regions_leave_interior (pic : picture)
    (hw : 3 ≤ pic.width) (hh : 3 ≤ pic.height) :
    ¬ within_interior (blur_seq_args pic) pic ∧
    (∀ i, ¬ within_interior (blur_by_column_args pic i) pic) ∧
    (∀ i, ¬ within_interior (blur_by_row_args pic i) pic) ∧
    (∀ a ∈ blur_by_sector_args pic, ¬ within_interior a pic) ∧
    blur_seq pic = .error (.get 0 pic.height) ∧ ¬ in_bounds pic 0 pic.height ∧
    blur_by_column pic = .error (.get 0 pic.height) ∧
    blur_by_row pic = .error (.get pic.width 0) ∧ ¬ in_bounds pic pic.width 0 := by
  refine ⟨?_, ?_, ?_, ?_, blur_seq_fault pic hw hh, ?_, blur_by_column_fault pic hw hh,
    blur_by_row_fault pic hw hh, ?_⟩
  · intro h
    simp only [within_interior, blur_seq_args] at h
    omega
  · intro i h
    simp only [within_interior, blur_by_column_args] at h
    omega
  · intro i h
    simp only [within_interior, blur_by_row_args] at h
    omega
  · intro a ha h
    simp only [blur_by_sector_args, List.mem_cons, List.mem_singleton, List.not_mem_nil,
      or_false] at ha
    rcases ha with e | e | e | e <;> subst e <;> simp only [within_interior] at h <;> omega
  · simp only [in_bounds]
    omega
  · simp only [in_bounds]
    omega

/-- The 5 by 12 picture `tall`: the region of `blur_seq` is {1, 1, 5, 12}, and
the run stops on the read of `(0, 12)`. -/
theorem strategy_regions_leave_interior_witness :
    (3 ≤ tall.width ∧ 3 ≤ tall.height) ∧
    blur_seq_args tall = { startX := 1, startY := 1, width := 5, height := 12, next := none } ∧
    ¬ within_interior (blur_seq_args tall) tall ∧
    blur_seq tall = .error (.get 0 12) :=
  ⟨by decide, rfl, (strategy_regions_leave_interior tall (by decide) (by decide)).1,
    (strategy_regions_leave_interior tall (by decide) (by decide)).2.2.2.2.1⟩

/-- C5: on a region within the interior `blur_picture_section` returns, and it has
set every pixel of the region to the truncated nine-pixel average, per channel, of
the picture as it was when the call began, leaving the size and every other pixel
as they were; on a 3 by 3 picture with the region {1, 1, 1, 1} the centre becomes
the truncated average of the whole picture. -/
theorem blur_picture_section_average (pic : picture) (args : blur_args)
    (h : within_interior args pic) :
    ∃ out, blur_picture_section args pic = .ok out ∧
      out.width = pic.width ∧ out.height = pic.height ∧
      (∀ x y, in_region args x y → out.img x y = box_average pic x y) ∧
      (∀ x y, ¬ in_region args x y → out.img x y = pic.img x y) ∧
      (pic.width = 3 → pic.height = 3 → args.startX = 1 → args.startY = 1 →
        args.width = 1 → args.height = 1 → out.img 1 1 = whole_average3 pic) := by
  refine ⟨_, blur_picture_section_interior args pic h, rfl, rfl, ?_, ?_, ?_⟩
  · intro x y hr
    simp only [blurred_in, hr, if_true]
  · intro x y hr
    simp only [blurred_in, hr, if_false]
  · intro _ _ e1 e2 e3 e4
    have hr : in_region args 1 1 := by unfold in_region; omega
    simp only [blurred_in, hr, if_true, box_average, sum9, whole_average3]
    norm_num
    refine ⟨?_, ?_, ?_⟩ <;> congr 1 <;> ring

theorem blur_picture_section_average_witness :
    within_interior (pixel_region 1 1) nine ∧
    ∃ out, blur_picture_section (pixel_region 1 1) nine = .ok out ∧
      out.width = nine.width ∧ out.height = nine.height ∧
      (∀ x y, in_region (pixel_region 1 1) x y → out.img x y = box_average nine x y) ∧
      (∀ x y, ¬ in_region (pixel_region 1 1) x y → out.img x y = nine.img x y) ∧
      (nine.width = 3 → nine.height = 3 → (pixel_region 1 1).startX = 1 →
        (pixel_region 1 1).startY = 1 → (pixel_region 1 1).width = 1 →
        (pixel_region 1 1).height = 1 → out.img 1 1 = whole_average3 nine) :=
  ⟨by decide, blur_picture_section_average nine (pixel_region 1 1) (by decide)⟩

/-- C7: when the interior height is at least 4, `blur_by_sector` runs the four
regions of `blur_by_sector_args`; with `sh = (height - 2) / 4` and
`rem = (height - 2) mod 4` their row ranges are `[1 + k * sh, 1 + (k + 1) * sh)` for
`k = 0, 1, 2` and `[1 + 3 * sh, 1 + 4 * sh + rem)`; every row from 1 to `height - 2`
is in one of them, no row is in two, and for interior height 10 the band heights
are 2, 2, 2 and 4. -/
theorem sector_bands (pic : picture) (h : 4 ≤ pic.height - 2) :
    blur_by_sector pic = run_tasks (blur_by_sector_args pic) pic ∧
    (blur_by_sector_args pic).map (fun a => (a.startY, a.startY + a.height)) =
      [(1 + 0 * ((pic.height - 2) / 4), 1 + 1 * ((pic.height - 2) / 4)),
       (1 + 1 * ((pic.height - 2) / 4), 1 + 2 * ((pic.height - 2) / 4)),
       (1 + 2 * ((pic.height - 2) / 4), 1 + 3 * ((pic.height - 2) / 4)),
       (1 + 3 * ((pic.height - 2) / 4),
         1 + 4 * ((pic.height - 2) / 4) + (pic.height - 2) % 4)] ∧
    (∀ y, (1 ≤ y ∧ y ≤ pic.height - 2) ↔ ∃ a ∈ blur_by_sector_args pic, in_rows a y) ∧
    (blur_by_sector_args pic).Pairwise (fun a b => ∀ y, ¬ (in_rows a y ∧ in_rows b y)) ∧
    (pic.height - 2 = 10 → (blur_by_sector_args pic).map (fun a => a.height) = [2, 2, 2, 4]) := by
  have hd : sectors_height pic = (pic.height - 2) / 4 :=
    Int.tdiv_eq_ediv (by omega) (by decide)
  have hm : sectors_mod pic = (pic.height - 2) % 4 :=
    Int.tmod_eq_emod (by omega) (by decide)
  refine ⟨?_, ?_, ?_, ?_, ?_⟩
  · unfold blur_by_sector
    rw [if_neg (by rw [hd]; omega)]
  · simp only [blur_by_sector_args, List.map_cons, List.map_nil, hd, hm]
    simp only [List.cons.injEq, Prod.mk.injEq, and_true]
    omega
  · intro y
    simp only [blur_by_sector_args, List.mem_cons, List.mem_singleton, List.not_mem_nil,
      or_false, exists_eq_or_imp, exists_eq_left, in_rows, hd, hm]
    omega
  · simp only [blur_by_sector_args, List.pairwise_cons, List.mem_cons, List.mem_singleton,
      List.not_mem_nil, forall_eq_or_imp, forall_eq, in_rows, hd, hm, List.Pairwise.nil,
      and_true, false_implies, implies_true]
    refine ⟨⟨?_, ?_, ?_⟩, ⟨?_, ?_⟩, ?_⟩ <;> intro y <;> omega
  · intro h10
    simp only [blur_by_sector_args, List.map_cons, List.map_nil, hd, hm, h10]
    decide

theorem sector_bands_witness :
    4 ≤ tall.height - 2 ∧
    (blur_by_sector_args tall).map (fun a => (a.startY, a.startY + a.height)) =
      [(1, 3), (3, 5), (5, 7), (7, 11)] ∧
    (blur_by_sector_args tall).map (fun a => a.height) = [2, 2, 2, 4] :=
  ⟨by decide, (sector_bands tall (by decide)).2.1, (sector_bands tall (by decide)).2.2.2.2 rfl⟩

/-- C8: when the interior height of a picture is less than 4, `blur_by_sector`
is `blur_seq`: both give the same outcome on the same input. -/
theorem sector_fallback (pic : picture) (h0 : 0 ≤ pic.height) (h : pic.height - 2 < 4) :
    sectors_height pic = 0 ∧ blur_by_sector pic = blur_seq pic := by
  have hs : sectors_height pic = 0 := by
    unfold sectors_height NUM_OF_SECTORS
    have : pic.height = 0 ∨ pic.height = 1 ∨ pic.height = 2 ∨ pic.height = 3 ∨
        pic.height = 4 ∨ pic.height = 5 := by omega
    rcases this with e | e | e | e | e | e <;> rw [e] <;> rfl
  refine ⟨hs, ?_⟩
  unfold blur_by_sector
  rw [if_pos hs]

theorem sector_fallback_witness :
    (0 ≤ nine.height ∧ nine.height - 2 < 4) ∧
    sectors_height nine = 0 ∧ blur_by_sector nine = blur_seq nine :=
  ⟨by decide, sector_fallback nine (by decide) (by decide)⟩

/-- C9: on a picture at least 3 by 3, `initialize_args` on a queue made by
`init_queue` leaves a queue of length `(width - 2) * (height - 2)`; popping until
`pop_job` returns `NULL` succeeds, hands out that many jobs, no job twice, each a
1 by 1 job, their pixels being exactly the interior pixels, no pixel twice, and
leaves the queue empty with length 0. The worker loop of `thread_work`, run on
that queue, returns: it leaves the queue as these pops leave it and the picture
as `blur_picture_section`, run on exactly these jobs in this order, leaves it;
a worker that comes after it finds the queue empty and changes nothing. -/
theorem initialize_args_jobs (pic : picture) (st0 : job_state)
    (hw : 3 ≤ pic.width) (hh : 3 ≤ pic.height) :
    (initialize_args pic (init_queue st0)).job_queue.len =
      (pic.width - 2) * (pic.height - 2) ∧
    ∃ jobs st1, (∀ fuel, ((pic.width - 2) * (pic.height - 2)).toNat + 1 ≤ fuel →
        pop_until_null fuel (initialize_args pic (init_queue st0)) = .ok (jobs, st1)) ∧
      (∃ out, thread_work (initialize_args pic (init_queue st0)) pic = .ok (st1, out) ∧
        run_tasks (jobs.map (initialize_args pic (init_queue st0)).args) pic = .ok out ∧
        thread_work st1 out = .ok (st1, out)) ∧
      st1.job_queue.len = 0 ∧ st1.job_queue.front = none ∧
      (jobs.length : Int) = (pic.width - 2) * (pic.height - 2) ∧
      jobs.Nodup ∧
      (∀ a ∈ jobs, ((initialize_args pic (init_queue st0)).args a).width = 1 ∧
        ((initialize_args pic (init_queue st0)).args a).height = 1) ∧
      (jobs.map (job_pixel (initialize_args pic (init_queue st0)))).Nodup ∧
      (∀ x y, (x, y) ∈ jobs.map (job_pixel (initialize_args pic (init_queue st0))) ↔
        interior pic x y) := by
  obtain ⟨s1, hs, hi, hq, hr⟩ := initialize_args_inv pic (init_queue st0) (init_queue_holds st0)
  rw [hs]
  have hlen : (grid_pixels 1 ((pic.width - 1) - 1).toNat 1 ((pic.height - 1) - 1).toNat).length
      = ((pic.height - 1) - 1).toNat * ((pic.width - 1) - 1).toNat := grid_pixels_length _ _ _ _
  have hN : (s1.i : Int) = (pic.width - 2) * (pic.height - 2) := by
    rw [hi, hlen]
    push_cast
    rw [Int.toNat_of_nonneg (by omega), Int.toNat_of_nonneg (by omega)]
    ring
  have hpix : (List.range s1.i).map (job_pixel s1.st) =
      grid_pixels 1 ((pic.width - 1) - 1).toNat 1 ((pic.height - 1) - 1).toNat := by
    have := congrArg (List.map (fun r : Int × Int × Int × Int => (r.1, r.2.1))) hr
    simpa [List.map_map, Function.comp_def, job_region, job_pixel] using this
  obtain ⟨st1, hh1, hp⟩ := pop_until_null_holds _ s1.st hq
  have hrun : run_tasks ((List.range s1.i).reverse.map s1.st.args) pic =
      .ok (blur_pixels
        (grid_pixels 1 ((pic.width - 1) - 1).toNat 1 ((pic.height - 1) - 1).toNat).reverse
        pic) :=
    run_tasks_pixel_jobs s1.st _ _ pic (by rw [List.map_reverse, hr, List.map_reverse])
      (fun p hp => by
        obtain ⟨x, y⟩ := p
        rw [List.mem_reverse, mem_grid_pixels] at hp
        simp only [interior]
        omega)
  refine ⟨?_, (List.range s1.i).reverse, st1, ?_, ⟨_, ?_, hrun, thread_work_empty st1 _ hh1⟩,
    ?_, ?_, ?_, ?_, ?_, ?_, ?_⟩
  · rw [hq.2.1]; simpa using hN
  · intro fuel hf
    refine hp fuel ?_
    simp only [List.length_reverse, List.length_range]
    have : ((pic.width - 2) * (pic.height - 2)).toNat = s1.i := by rw [← hN]; simp
    omega
  · refine thread_work_loop_pops _ s1.st pic _ st1 _ (hp _ ?_) hrun
    rw [hq.2.1]
    simp
  · simpa using hh1.2.1
  · exact hh1.1
  · simpa using hN
  · exact hq.2.2
  · intro a ha
    have ha1 : a ∈ List.range s1.i := List.mem_reverse.mp ha
    have : job_region s1.st a ∈ (List.range s1.i).map (job_region s1.st) :=
      List.mem_map_of_mem _ ha1
    rw [hr] at this
    obtain ⟨p, _, hp⟩ := List.mem_map.mp this
    simp only [job_region, Prod.mk.injEq] at hp
    exact ⟨hp.2.2.1.symm, hp.2.2.2.symm⟩
  · rw [List.map_reverse, hpix]
    exact List.nodup_reverse.mpr (grid_pixels_nodup _ _ _ _)
  · intro x y
    rw [List.map_reverse, hpix, List.mem_reverse, mem_grid_pixels]
    unfold interior
    rw [Int.toNat_of_nonneg (by omega), Int.toNat_of_nonneg (by omega)]
    omega

theorem initialize_args_jobs_witness :
    (3 ≤ spike.width ∧ 3 ≤ spike.height) ∧
    ((initialize_args spike (init_queue blank_state)).job_queue.len =
      (spike.width - 2) * (spike.height - 2) ∧
    ∃ jobs st1, (∀ fuel, ((spike.width - 2) * (spike.height - 2)).toNat + 1 ≤ fuel →
        pop_until_null fuel (initialize_args spike (init_queue blank_state)) = .ok (jobs, st1)) ∧
      (∃ out, thread_work (initialize_args spike (init_queue blank_state)) spike =
          .ok (st1, out) ∧
        run_tasks (jobs.map (initialize_args spike (init_queue blank_state)).args) spike =
          .ok out ∧
        thread_work st1 out = .ok (st1, out)) ∧
      st1.job_queue.len = 0 ∧ st1.job_queue.front = none ∧
      (jobs.length : Int) = (spike.width - 2) * (spike.height - 2) ∧
      jobs.Nodup ∧
      (∀ a ∈ jobs, ((initialize_args spike (init_queue blank_state)).args a).width = 1 ∧
        ((initialize_args spike (init_queue blank_state)).args a).height = 1) ∧
      (jobs.map (job_pixel (initialize_args spike (init_queue blank_state)))).Nodup ∧
      (∀ x y, (x, y) ∈ jobs.map (job_pixel (initialize_args spike (init_queue blank_state))) ↔
        interior spike x y)) ∧
    (∃ st1, pop_until_null 3 (initialize_args spike (init_queue blank_state)) = .ok ([1, 0], st1) ∧
      [1, 0].map (job_pixel (initialize_args spike (init_queue blank_state))) =
        [(2, 1), (1, 1)]) ∧
    ∃ st1 out, thread_work (initialize_args spike (init_queue blank_state)) spike =
        .ok (st1, out) ∧
      st1.job_queue.len = 0 ∧ out.img 2 1 = ⟨10, 10, 10⟩ ∧ out.img 1 1 = ⟨1, 1, 1⟩ :=
  ⟨by decide, initialize_args_jobs spike blank_state (by decide) (by decide),
    ⟨_, rfl, by decide⟩, _, _, rfl, rfl, by decide, by decide⟩

/-- C10: the job queue is last in, first out. Distinct jobs with `next = NULL`,
pushed in the order of the list `js` onto a queue made by `init_queue`, are
returned by as many `pop_job` calls in the reverse order; and for the pixel
strategy on a picture at least 3 by 3 the last job handed out is job 0, the first
one made, whose pixel is `(1, 1)`. -/
theorem queue_lifo (st0 : job_state) (js : List Nat) (pic : picture)
    (hnd : js.Nodup) (hnext : ∀ j ∈ js, (st0.args j).next = none)
    (hw : 3 ≤ pic.width) (hh : 3 ≤ pic.height) :
    (∃ st1, pop_n js.length (push_all js (init_queue st0)) = .ok (js.reverse.map some, st1) ∧
      st1.job_queue.len = 0) ∧
    ∃ jobs st1, (∀ fuel, ((pic.width - 2) * (pic.height - 2)).toNat + 1 ≤ fuel →
        pop_until_null fuel (initialize_args pic (init_queue st0)) = .ok (jobs, st1)) ∧
      jobs.getLast? = some 0 ∧
      job_pixel (initialize_args pic (init_queue st0)) 0 = (1, 1) := by
  constructor
  · have h := push_all_holds js (init_queue st0) [] (init_queue_holds st0) hnd
      (fun j _ => List.not_mem_nil j) hnext
    rw [List.append_nil] at h
    obtain ⟨st1, hp, hh1⟩ := pop_n_holds js.reverse _ h
    rw [List.length_reverse] at hp
    exact ⟨st1, hp, by simpa using hh1.2.1⟩
  · obtain ⟨s1, hs, hi, hq, hr⟩ :=
      initialize_args_inv pic (init_queue st0) (init_queue_holds st0)
    rw [hs]
    have hlen : (grid_pixels 1 ((pic.width - 1) - 1).toNat 1 ((pic.height - 1) - 1).toNat).length
        = ((pic.height - 1) - 1).toNat * ((pic.width - 1) - 1).toNat :=
      grid_pixels_length _ _ _ _
    have hN : (s1.i : Int) = (pic.width - 2) * (pic.height - 2) := by
      rw [hi, hlen]
      push_cast
      rw [Int.toNat_of_nonneg (by omega), Int.toNat_of_nonneg (by omega)]
      ring
    obtain ⟨n1, hn1⟩ : ∃ n1, ((pic.width - 1) - 1).toNat = n1 + 1 :=
      ⟨((pic.width - 1) - 1).toNat - 1, by omega⟩
    obtain ⟨m1, hm1⟩ : ∃ m1, ((pic.height - 1) - 1).toNat = m1 + 1 :=
      ⟨((pic.height - 1) - 1).toNat - 1, by omega⟩
    obtain ⟨k, hk⟩ : ∃ k, s1.i = k + 1 := by
      refine ⟨s1.i - 1, ?_⟩
      rw [hi, hlen, hn1, hm1]
      have : 0 < (m1 + 1) * (n1 + 1) := Nat.mul_pos (Nat.succ_pos _) (Nat.succ_pos _)
      omega
    obtain ⟨st1, _, hp⟩ := pop_until_null_holds _ s1.st hq
    refine ⟨(List.range s1.i).reverse, st1, ?_, ?_, ?_⟩
    · intro fuel hf
      refine hp fuel ?_
      simp only [List.length_reverse, List.length_range]
      have : ((pic.width - 2) * (pic.height - 2)).toNat = s1.i := by rw [← hN]; simp
      omega
    · rw [hk, List.range_succ_eq_map]
      simp
    · rw [hk, List.range_succ_eq_map, hn1, hm1] at hr
      simp only [grid_pixels, row_pixels, List.map_cons, List.cons_append, List.cons.injEq] at hr
      have := hr.1
      simp only [job_region, Prod.mk.injEq] at this
      simp only [job_pixel, this.1, this.2.1]

/-- The jobs 3, 1, 2 pushed in this order come back as 2, 1, 3; on `spike` the
jobs come back as 1, 0, and job 0 is for the pixel `(1, 1)`. -/
theorem queue_lifo_witness :
    ([3, 1, 2].Nodup ∧ (∀ j ∈ [3, 1, 2], (blank_state.args j).next = none) ∧
      3 ≤ spike.width ∧ 3 ≤ spike.height) ∧
    (∃ st1, pop_n 3 (push_all [3, 1, 2] (init_queue blank_state)) =
        .ok ([some 2, some 1, some 3], st1) ∧ st1.job_queue.len = 0) ∧
    ∃ jobs st1, (∀ fuel, 3 ≤ fuel →
        pop_until_null fuel (initialize_args spike (init_queue blank_state)) = .ok (jobs, st1)) ∧
      jobs.getLast? = some 0 ∧
      job_pixel (initialize_args spike (init_queue blank_state)) 0 = (1, 1) :=
  ⟨⟨by decide, fun _ _ => rfl, by decide, by decide⟩,
    queue_lifo blank_state [3, 1, 2] spike (by decide) (fun _ _ => rfl) (by decide) (by decide)⟩

/-! ## Loops that write one pixel per round -/

/-- A loop down the column `i` whose round `j` stores `val i j c` at `(i, j)`, `c`
being the pixel found there. -/
theorem rows_loop (W H : Int) (val : Int → Int → pixel → pixel)
    (body : Int → picture → Except Fault picture) (i : Int) (n : Nat) :
    ∀ (y0 : Int) (q : picture), q.width = W → q.height = H →
      (∀ j q1, y0 ≤ j → j < y0 + n → q1.width = W → q1.height = H →
        body j q1 = .ok { q1 with img := fun a b =>
          if a = i ∧ b = j then (val i j (q1.img i j)) else q1.img a b }) →
      for_loop y0 n body q =
        .ok { q with img := fun a b =>
          if a = i ∧ y0 ≤ b ∧ b < y0 + n then val a b (q.img a b) else q.img a b } := by
  induction n with
  | zero =>
    intro y0 q _ _ _
    simp only [for_loop]
    congr 1
    cases q with
    | mk w h img =>
      simp only [picture.mk.injEq, true_and]
      funext a b
      have : ¬ (a = i ∧ y0 ≤ b ∧ b < y0 + ((0 : Nat) : Int)) := by omega
      simp only [this, if_false]
  | succ k ih =>
    intro y0 q hw hh hb
    simp only [for_loop]
    rw [hb y0 q (le_refl _) (by push_cast; omega) hw hh]
    simp only
    refine (ih (y0 + 1)
      { q with img := fun a b => if a = i ∧ b = y0 then val i y0 (q.img i y0) else q.img a b }
      hw hh (fun j q1 h1 h2 => hb j q1 (by omega) (by push_cast; omega))).trans ?_
    congr 1
    simp only [picture.mk.injEq, true_and]
    funext a b
    by_cases h1 : a = i ∧ y0 + 1 ≤ b ∧ b < y0 + 1 + (k : Int)
    · have h2 : a = i ∧ y0 ≤ b ∧ b < y0 + ((k + 1 : Nat) : Int) := by push_cast; omega
      have h3 : ¬ (a = i ∧ b = y0) := by omega
      rw [if_pos h1, if_pos h2, if_neg h3]
    · by_cases h3 : a = i ∧ b = y0
      · have h2 : a = i ∧ y0 ≤ b ∧ b < y0 + ((k + 1 : Nat) : Int) := by push_cast; omega
        rw [if_neg h1, if_pos h3, if_pos h2, h3.1, h3.2]
      · have h2 : ¬ (a = i ∧ y0 ≤ b ∧ b < y0 + ((k + 1 : Nat) : Int)) := by push_cast; omega
        rw [if_neg h1, if_neg h3, if_neg h2]

/-- Two nested loops whose round `(i, j)` stores `val i j c` at `(i, j)`, `c` being
the pixel found there. -/
theorem grid_loop (W H : Int) (val : Int → Int → pixel → pixel)
    (body : Int → Int → picture → Except Fault picture) (y0 : Int) (m : Nat) (n : Nat) :
    ∀ (x0 : Int) (q : picture), q.width = W → q.height = H →
      (∀ i j q1, x0 ≤ i → i < x0 + n → y0 ≤ j → j < y0 + m → q1.width = W → q1.height = H →
        body i j q1 = .ok { q1 with img := fun a b =>
          if a = i ∧ b = j then (val i j (q1.img i j)) else q1.img a b }) →
      for_loop x0 n (fun i p => for_loop y0 m (fun j r => body i j r) p) q =
        .ok { q with img := fun a b =>
          if (x0 ≤ a ∧ a < x0 + n) ∧ y0 ≤ b ∧ b < y0 + m then val a b (q.img a b) else q.img a b } := by
  induction n with
  | zero =>
    intro x0 q _ _ _
    simp only [for_loop]
    congr 1
    cases q with
    | mk w h img =>
      simp only [picture.mk.injEq, true_and]
      funext a b
      have : ¬ ((x0 ≤ a ∧ a < x0 + ((0 : Nat) : Int)) ∧ y0 ≤ b ∧ b < y0 + (m : Int)) := by omega
      simp only [this, if_false]
  | succ k ih =>
    intro x0 q hw hh hb
    simp only [for_loop]
    rw [rows_loop W H val (fun j r => body x0 j r) x0 m y0 q hw hh
      (fun j q1 h1 h2 h3 h4 => hb x0 j q1 (le_refl _) (by push_cast; omega) h1 h2 h3 h4)]
    simp only
    refine (ih (x0 + 1)
      { q with img := fun a b =>
          if a = x0 ∧ y0 ≤ b ∧ b < y0 + m then val a b (q.img a b) else q.img a b }
      hw hh
      (fun i j q1 h1 h2 h3 h4 h5 h6 =>
        hb i j q1 (by omega) (by push_cast; omega) h3 h4 h5 h6)).trans ?_
    congr 1
    simp only [picture.mk.injEq, true_and]
    funext a b
    by_cases hbb : y0 ≤ b ∧ b < y0 + (m : Int)
    · by_cases h1 : x0 + 1 ≤ a ∧ a < x0 + 1 + (k : Int)
      · have c1 : (x0 + 1 ≤ a ∧ a < x0 + 1 + (k : Int)) ∧ y0 ≤ b ∧ b < y0 + (m : Int) :=
          ⟨h1, hbb⟩
        have c2 : (x0 ≤ a ∧ a < x0 + ((k + 1 : Nat) : Int)) ∧ y0 ≤ b ∧ b < y0 + (m : Int) :=
          ⟨by push_cast; omega, hbb⟩
        have c3 : ¬ (a = x0 ∧ y0 ≤ b ∧ b < y0 + (m : Int)) := by omega
        rw [if_pos c1, if_pos c2, if_neg c3]
      · have c1 : ¬ ((x0 + 1 ≤ a ∧ a < x0 + 1 + (k : Int)) ∧ y0 ≤ b ∧ b < y0 + (m : Int)) :=
          fun hn => h1 hn.1
        by_cases h3 : a = x0
        · have c2 : (x0 ≤ a ∧ a < x0 + ((k + 1 : Nat) : Int)) ∧ y0 ≤ b ∧ b < y0 + (m : Int) :=
            ⟨by push_cast; omega, hbb⟩
          have c3 : a = x0 ∧ y0 ≤ b ∧ b < y0 + (m : Int) := ⟨h3, hbb⟩
          rw [if_neg c1, if_pos c3, if_pos c2]
        · have c2 : ¬ ((x0 ≤ a ∧ a < x0 + ((k + 1 : Nat) : Int)) ∧ y0 ≤ b ∧ b < y0 + (m : Int)) := by
            push_cast; omega
          have c3 : ¬ (a = x0 ∧ y0 ≤ b ∧ b < y0 + (m : Int)) := fun hn => h3 hn.1
          rw [if_neg c1, if_neg c3, if_neg c2]
    · have c1 : ¬ ((x0 + 1 ≤ a ∧ a < x0 + 1 + (k : Int)) ∧ y0 ≤ b ∧ b < y0 + (m : Int)) :=
        fun hn => hbb hn.2
      have c2 : ¬ ((x0 ≤ a ∧ a < x0 + ((k + 1 : Nat) : Int)) ∧ y0 ≤ b ∧ b < y0 + (m : Int)) :=
        fun hn => hbb hn.2
      have c3 : ¬ (a = x0 ∧ y0 ≤ b ∧ b < y0 + (m : Int)) := fun hn => hbb hn.2
      rw [if_neg c1, if_neg c3, if_neg c2]

/-- Copying a pixel of `tmp` within its bounds to a pixel of `q` within its
bounds. -/
theorem copy_pixel_ok (tmp q : picture) (x y i j : Int)
    (hs : in_bounds tmp x y) (hd : in_bounds q i j) :
    copy_pixel tmp x y q i j =
      .ok { q with img := fun a b => if a = i ∧ b = j then tmp.img x y else q.img a b } := by
  simp only [copy_pixel, get_pixel, set_pixel, hs, hd, if_true]

/-! ## The library transforms -/

theorem invert_pixel_at_ok (q : picture) (i j : Int) (h : in_bounds q i j) :
    invert_pixel_at i j q =
      .ok { q with img := fun a b =>
        if a = i ∧ b = j then invert_pixel (q.img i j) else q.img a b } := by
  simp only [invert_pixel_at, get_pixel, set_pixel, h, if_true, invert_pixel]

/-- What `invert_picture` returns, on every picture. -/
theorem invert_picture_inverted (pic : picture) : invert_picture pic = .ok (inverted pic) := by
  unfold invert_picture
  rw [grid_loop pic.width pic.height (fun _ _ c => invert_pixel c)
    (fun i j q => invert_pixel_at i j q) 0 _ _ 0 pic rfl rfl
    (fun i j q1 h1 h2 h3 h4 h5 h6 =>
      invert_pixel_at_ok q1 i j (by unfold in_bounds; omega))]
  congr 1
  unfold inverted
  simp only [picture.mk.injEq, true_and]
  funext a b
  by_cases hb : in_bounds pic a b
  · have c1 : (0 ≤ a ∧ a < 0 + ((pic.width - 0).toNat : Int)) ∧
        0 ≤ b ∧ b < 0 + ((pic.height - 0).toNat : Int) := by
      unfold in_bounds at hb; omega
    rw [if_pos c1, if_pos hb]
  · have c1 : ¬ ((0 ≤ a ∧ a < 0 + ((pic.width - 0).toNat : Int)) ∧
        0 ≤ b ∧ b < 0 + ((pic.height - 0).toNat : Int)) := by
      unfold in_bounds at hb; omega
    rw [if_neg c1, if_neg hb]

theorem invert_pixel_twice (c : pixel) : invert_pixel (invert_pixel c) = c := by
  obtain ⟨r, g, b⟩ := c
  simp only [invert_pixel, MAX_PIXEL_INTENSITY, pixel.mk.injEq]
  omega

theorem inverted_twice (pic : picture) : inverted (inverted pic) = pic := by
  cases pic with
  | mk w h img =>
    unfold inverted
    simp only [picture.mk.injEq, true_and]
    funext a b
    by_cases hb : in_bounds ⟨w, h, img⟩ a b
    · have hb2 : in_bounds
          ({ width := w, height := h, img := fun x y =>
              if in_bounds ⟨w, h, img⟩ x y then invert_pixel (img x y) else img x y } : picture)
          a b := hb
      rw [if_pos hb2, if_pos hb, invert_pixel_twice]
    · have hb2 : ¬ in_bounds
          ({ width := w, height := h, img := fun x y =>
              if in_bounds ⟨w, h, img⟩ x y then invert_pixel (img x y) else img x y } : picture)
          a b := hb
      rw [if_neg hb2, if_neg hb]

/-- A loop whose body never returns from the function is a plain loop. -/
theorem for_loop_ret_goes_on {σ : Type} (g : Int → σ → Except Fault σ) (n : Nat) :
    ∀ (lo : Int) (s : σ),
      for_loop_ret lo n (fun i t => goes_on (g i t)) s = goes_on (for_loop lo n g s) := by
  induction n with
  | zero => intro lo s; rfl
  | succ k ih =>
    intro lo s
    simp only [for_loop_ret, for_loop]
    cases hg : g lo s with
    | ok s1 => simp only [goes_on]; exact ih (lo + 1) s1
    | error e => simp only [goes_on]

/-- A loop whose rounds leave the state alone, going on or returning, leaves the
state alone. -/
theorem for_loop_ret_idle {σ : Type} (body : Int → σ → Except Fault (loop_step σ))
    (hb : ∀ i t, body i t = .ok (.next t) ∨ body i t = .ok (.returned t)) (n : Nat) :
    ∀ (lo : Int) (s : σ),
      for_loop_ret lo n body s = .ok (.next s) ∨ for_loop_ret lo n body s = .ok (.returned s) := by
  induction n with
  | zero => intro lo s; exact Or.inl rfl
  | succ k ih =>
    intro lo s
    simp only [for_loop_ret]
    rcases hb lo s with h | h
    · rw [h]; exact ih (lo + 1) s
    · rw [h]; exact Or.inr rfl

/-- With an angle other than 90, 180 and 270 `rotate_picture` returns the new
image it made, of the size of the picture, as it was made. -/
theorem rotate_picture_other (fresh : Int → Int → Int → Int → pixel) (pic : picture)
    (angle : Int) (h90 : angle ≠ 90) (h180 : angle ≠ 180) (h270 : angle ≠ 270) :
    rotate_picture fresh pic angle = .ok (init_picture_from_size fresh pic.width pic.height) := by
  unfold rotate_picture copy_image
  have hc : ¬ (angle = 90 ∨ angle = 270) := by omega
  simp only [if_neg hc]
  have hinner : ∀ (i : Int) (p : picture),
      for_loop_ret 0 (pic.height - 0).toNat (fun j q =>
        rotate_pixel_at pic angle pic.width pic.height i j q) p = .ok (.next p) ∨
      for_loop_ret 0 (pic.height - 0).toNat (fun j q =>
        rotate_pixel_at pic angle pic.width pic.height i j q) p = .ok (.returned p) := by
    intro i p
    refine for_loop_ret_idle _ (fun j t => Or.inr ?_) _ 0 p
    simp only [rotate_pixel_at, if_neg h90, if_neg h180, if_neg h270]
  rcases for_loop_ret_idle _ hinner (pic.width - 0).toNat 0
    (init_picture_from_size fresh pic.width pic.height) with h | h
  · rw [h]; rfl
  · rw [h]; rfl

theorem at_exit_goes_on {σ : Type} (r : Except Fault σ) : at_exit (goes_on r) = r := by
  cases r <;> rfl

/-- Two nested loops that copy to every pixel `(i, j)` of a picture of size `nw`
by `nh` the pixel `(sx i j, sy i j)` of `tmp`, when these lie within `tmp`. -/
theorem copy_loops (tmp q0 : picture) (nw nh : Int) (sx sy : Int → Int → Int)
    (hw : q0.width = nw) (hh : q0.height = nh)
    (hs : ∀ i j, 0 ≤ i → i < nw → 0 ≤ j → j < nh → in_bounds tmp (sx i j) (sy i j)) :
    for_loop 0 (nw - 0).toNat (fun i p =>
      for_loop 0 (nh - 0).toNat (fun j q => copy_pixel tmp (sx i j) (sy i j) q i j) p) q0 =
      .ok { q0 with img := fun a b =>
        if (0 ≤ a ∧ a < nw) ∧ 0 ≤ b ∧ b < nh then tmp.img (sx a b) (sy a b) else q0.img a b } := by
  rw [grid_loop nw nh (fun a b _ => tmp.img (sx a b) (sy a b))
    (fun i j q => copy_pixel tmp (sx i j) (sy i j) q i j) 0 _ _ 0 q0 hw hh
    (fun i j q1 h1 h2 h3 h4 h5 h6 =>
      copy_pixel_ok tmp q1 (sx i j) (sy i j) i j (hs i j h1 (by omega) h3 (by omega))
        (by unfold in_bounds; omega))]
  congr 1
  simp only [picture.mk.injEq, true_and]
  funext a b
  by_cases hb : (0 ≤ a ∧ a < nw) ∧ 0 ≤ b ∧ b < nh
  · have c1 : (0 ≤ a ∧ a < 0 + ((nw - 0).toNat : Int)) ∧
        0 ≤ b ∧ b < 0 + ((nh - 0).toNat : Int) := by omega
    rw [if_pos c1, if_pos hb]
  · have c1 : ¬ ((0 ≤ a ∧ a < 0 + ((nw - 0).toNat : Int)) ∧
        0 ≤ b ∧ b < 0 + ((nh - 0).toNat : Int)) := by omega
    rw [if_neg c1, if_neg hb]

/-- What `rotate_picture` returns for the angle 90. -/
theorem rotate_picture_90 (fresh : Int → Int → Int → Int → pixel) (pic : picture) :
    rotate_picture fresh pic 90 =
      .ok (filled fresh pic.height pic.width (fun a b => pic.img b (pic.height - 1 - a))) := by
  show at_exit (for_loop_ret 0 (pic.height - 0).toNat (fun i p =>
    for_loop_ret 0 (pic.width - 0).toNat (fun j q =>
      rotate_pixel_at pic 90 pic.height pic.width i j q) p)
    (init_picture_from_size fresh pic.height pic.width)) = _
  have hbody : (fun (i : Int) (p : picture) =>
      for_loop_ret 0 (pic.width - 0).toNat (fun j q =>
        rotate_pixel_at pic 90 pic.height pic.width i j q) p) =
      (fun i p => goes_on (for_loop 0 (pic.width - 0).toNat (fun j q =>
        copy_pixel pic j (pic.height - 1 - i) q i j) p)) := by
    funext i p
    exact for_loop_ret_goes_on _ _ 0 p
  rw [hbody, for_loop_ret_goes_on, at_exit_goes_on]
  exact copy_loops pic (init_picture_from_size fresh pic.height pic.width) pic.height pic.width
    (fun _ j => j) (fun i _ => pic.height - 1 - i) rfl rfl
    (fun i j h1 h2 h3 h4 => by simp only [in_bounds]; omega)

/-- What `rotate_picture` returns for the angle 180. -/
theorem rotate_picture_180 (fresh : Int → Int → Int → Int → pixel) (pic : picture) :
    rotate_picture fresh pic 180 =
      .ok (filled fresh pic.width pic.height
        (fun a b => pic.img (pic.width - 1 - a) (pic.height - 1 - b))) := by
  show at_exit (for_loop_ret 0 (pic.width - 0).toNat (fun i p =>
    for_loop_ret 0 (pic.height - 0).toNat (fun j q =>
      rotate_pixel_at pic 180 pic.width pic.height i j q) p)
    (init_picture_from_size fresh pic.width pic.height)) = _
  have hbody : (fun (i : Int) (p : picture) =>
      for_loop_ret 0 (pic.height - 0).toNat (fun j q =>
        rotate_pixel_at pic 180 pic.width pic.height i j q) p) =
      (fun i p => goes_on (for_loop 0 (pic.height - 0).toNat (fun j q =>
        copy_pixel pic (pic.width - 1 - i) (pic.height - 1 - j) q i j) p)) := by
    funext i p
    exact for_loop_ret_goes_on _ _ 0 p
  rw [hbody, for_loop_ret_goes_on, at_exit_goes_on]
  exact copy_loops pic (init_picture_from_size fresh pic.width pic.height) pic.width pic.height
    (fun i _ => pic.width - 1 - i) (fun _ j => pic.height - 1 - j) rfl rfl
    (fun i j h1 h2 h3 h4 => by simp only [in_bounds]; omega)

/-- What `rotate_picture` returns for the angle 270. -/
theorem rotate_picture_270 (fresh : Int → Int → Int → Int → pixel) (pic : picture) :
    rotate_picture fresh pic 270 =
      .ok (filled fresh pic.height pic.width (fun a b => pic.img (pic.width - 1 - b) a)) := by
  show at_exit (for_loop_ret 0 (pic.height - 0).toNat (fun i p =>
    for_loop_ret 0 (pic.width - 0).toNat (fun j q =>
      rotate_pixel_at pic 270 pic.height pic.width i j q) p)
    (init_picture_from_size fresh pic.height pic.width)) = _
  have hbody : (fun (i : Int) (p : picture) =>
      for_loop_ret 0 (pic.width - 0).toNat (fun j q =>
        rotate_pixel_at pic 270 pic.height pic.width i j q) p) =
      (fun i p => goes_on (for_loop 0 (pic.width - 0).toNat (fun j q =>
        copy_pixel pic (pic.width - 1 - j) i q i j) p)) := by
    funext i p
    exact for_loop_ret_goes_on _ _ 0 p
  rw [hbody, for_loop_ret_goes_on, at_exit_goes_on]
  exact copy_loops pic (init_picture_from_size fresh pic.height pic.width) pic.height pic.width
    (fun _ j => pic.width - 1 - j) (fun i _ => i) rfl rfl
    (fun i j h1 h2 h3 h4 => by simp only [in_bounds]; omega)

/-- What `blur_picture` returns, on every picture: the picture with all interior
pixels set to the averages taken in the picture as it was. -/
theorem blur_picture_blurred (pic : picture) :
    blur_picture pic = .ok (blurred_in pic (interior_region pic) pic) := by
  unfold blur_picture copy_image
  simp only
  rw [region_loop_interior pic 1 _ _ 1 pic rfl rfl
    (fun a b ha1 ha2 hb1 hb2 => by unfold interior; omega)]
  congr 1
  unfold blurred_in
  simp only [picture.mk.injEq, true_and]
  funext a b
  by_cases hr : in_region (interior_region pic) a b
  · have c1 : (1 ≤ a ∧ a < 1 + ((pic.width - 1 - 1).toNat : Int)) ∧
        1 ≤ b ∧ b < 1 + ((pic.height - 1 - 1).toNat : Int) := by
      simp only [in_region, interior_region] at hr; omega
    rw [if_pos c1, if_pos hr]
  · have c1 : ¬ ((1 ≤ a ∧ a < 1 + ((pic.width - 1 - 1).toNat : Int)) ∧
        1 ≤ b ∧ b < 1 + ((pic.height - 1 - 1).toNat : Int)) := by
      simp only [in_region, interior_region] at hr; omega
    rw [if_neg c1, if_neg hr]

/-! ## The tasks of the strategies -/

theorem mem_int_range (a : Int) (n : Nat) :
    ∀ lo, a ∈ int_range lo n ↔ lo ≤ a ∧ a < lo + n := by
  induction n with
  | zero => intro lo; simp [int_range]
  | succ k ih =>
    intro lo
    simp only [int_range, List.mem_cons, ih]
    push_cast
    omega

/-- The counter of a loop takes its values in increasing order. -/
theorem int_range_increasing (n : Nat) :
    ∀ lo, (int_range lo n).Pairwise (fun a b => a < b) := by
  induction n with
  | zero => intro lo; exact List.Pairwise.nil
  | succ k ih =>
    intro lo
    simp only [int_range]
    refine List.Pairwise.cons (fun b hb => ?_) (ih _)
    rw [mem_int_range] at hb
    omega

/-- A loop that runs one task per round runs the tasks of the list of its
argument blocks. -/
theorem for_loop_run_tasks (f : Int → blur_args) (n : Nat) :
    ∀ (lo : Int) (pic : picture),
      for_loop lo n (fun i p => blur_picture_section (f i) p) pic =
        run_tasks ((int_range lo n).map f) pic := by
  induction n with
  | zero => intro lo pic; rfl
  | succ k ih =>
    intro lo pic
    simp only [for_loop, int_range, List.map_cons, run_tasks]
    cases blur_picture_section (f lo) pic with
    | ok p => exact ih (lo + 1) p
    | error e => rfl

/-- Run one after another, each as soon as it is spawned, the tasks of
`blur_by_column` read the shared block of their own round. -/
theorem blur_by_column_run_tasks (pic : picture) :
    blur_by_column pic = run_tasks (blur_by_column_tasks pic (fun i => i)) pic :=
  for_loop_run_tasks (fun i => blur_by_column_args pic i) _ 0 pic

/-- Run one after another, each as soon as it is spawned, the tasks of
`blur_by_row` read the shared block of their own round. -/
theorem blur_by_row_run_tasks (pic : picture) :
    blur_by_row pic = run_tasks (blur_by_row_tasks pic (fun i => i)) pic :=
  for_loop_run_tasks (fun i => blur_by_row_args pic i) _ 0 pic

theorem blur_by_sector_run_tasks (pic : picture) :
    blur_by_sector pic = run_tasks (blur_by_sector_tasks pic) pic := by
  unfold blur_by_sector blur_by_sector_tasks
  by_cases h : sectors_height pic = 0
  · rw [if_pos h, if_pos h]
    unfold blur_seq run_tasks
    cases blur_picture_section (blur_seq_args pic) pic with
    | ok p => rfl
    | error e => rfl
  · rw [if_neg h, if_neg h]

/-- A state kept by every round of a loop that ends without a fault is kept by
the loop. -/
theorem for_loop_keeps {σ : Type} (P : σ → Prop) (body : Int → σ → Except Fault σ) (n : Nat) :
    ∀ (lo : Int) (s s1 : σ),
      (∀ i t t1, lo ≤ i → i < lo + n → P t → body i t = .ok t1 → P t1) →
      P s → for_loop lo n body s = .ok s1 → P s1 := by
  induction n with
  | zero =>
    intro lo s s1 _ hs h
    simp only [for_loop, Except.ok.injEq] at h
    exact h ▸ hs
  | succ k ih =>
    intro lo s s1 hb hs h
    simp only [for_loop] at h
    cases hbody : body lo s with
    | error e => rw [hbody] at h; cases h
    | ok t =>
      rw [hbody] at h
      exact ih (lo + 1) t s1
        (fun i u u1 h1 h2 => hb i u u1 (by omega) (by push_cast; omega))
        (hb lo s t (le_refl _) (by push_cast; omega) hs hbody) h

/-- One round of the loops of `blur_picture_section` writes no pixel but
`(i, j)`. -/
theorem blur_pixel_at_writes (tmp q q1 : picture) (i j : Int)
    (h : blur_pixel_at tmp i j q = .ok q1) :
    ∀ x y, ¬ (x = i ∧ y = j) → q1.img x y = q.img x y := by
  intro x y hxy
  unfold blur_pixel_at at h
  cases hk : kernel_sums tmp i j with
  | error e => rw [hk] at h; cases h
  | ok s =>
    rw [hk] at h
    simp only [set_pixel] at h
    by_cases hb : in_bounds q i j
    · simp only [hb, if_true, Except.ok.injEq] at h
      rw [← h]
      simp only [hxy, if_false]
    · simp only [hb, if_false] at h
      cases h

/-- A task writes no pixel outside its region. -/
theorem blur_picture_section_writes (args : blur_args) (pic out : picture)
    (h : blur_picture_section args pic = .ok out) :
    ∀ x y, ¬ in_region args x y → out.img x y = pic.img x y := by
  unfold blur_picture_section copy_image at h
  simp only at h
  refine for_loop_keeps (fun q => ∀ x y, ¬ in_region args x y → q.img x y = pic.img x y)
    _ _ _ pic out ?_ (fun _ _ _ => rfl) h
  intro i t t1 hi1 hi2 ht hbody
  refine for_loop_keeps (fun q => ∀ x y, ¬ in_region args x y → q.img x y = pic.img x y)
    _ _ _ t t1 ?_ ht hbody
  intro j u u1 hj1 hj2 hu hstep x y hxy
  rw [blur_pixel_at_writes pic u u1 i j hstep x y (fun hn => hxy (by
    unfold in_region
    omega))]
  exact hu x y hxy

/-! ## Pictures without interior -/

/-- A loop whose rounds change nothing changes nothing. -/
theorem for_loop_idle {σ : Type} (n : Nat) :
    ∀ (lo : Int) (s : σ), for_loop lo n (fun _ t => .ok t) s = .ok s := by
  induction n with
  | zero => intro lo s; rfl
  | succ k ih => intro lo s; simp only [for_loop]; exact ih (lo + 1) s

/-- On a picture less than 3 wide or less than 3 high `initialize_args` pushes no
job. -/
theorem initialize_args_small (pic : picture) (st : job_state)
    (h : pic.width < 3 ∨ pic.height < 3) : initialize_args pic st = st := by
  unfold initialize_args
  rcases h with h | h
  · have e : ((pic.width - 1) - 1).toNat = 0 := by omega
    rw [e]
    simp only [for_loop]
    rw [for_loop_idle]
  · have e : ((pic.height - 1) - 1).toNat = 0 := by omega
    rw [e]
    simp only [for_loop]

/-- On a picture less than 3 wide or less than 3 high `blur_by_pixel` returns the
picture as it was. -/
theorem blur_by_pixel_small (mem : Nat → blur_args) (pic : picture)
    (h : pic.width < 3 ∨ pic.height < 3) : blur_by_pixel mem pic = .ok pic := by
  unfold blur_by_pixel
  simp only
  rw [initialize_args_small pic _ h, workers_on_empty_queue NUM_OF_THREADS 0 _ pic
    (init_queue_holds _)]

/-! ## The reachable states of the queue -/

/-- In every reachable state the queue holds the jobs of some list. -/
theorem reachable_holds (st : job_state) (h : reachable st) : ∃ l, holds st l := by
  induction h with
  | init st0 => exact ⟨[], init_queue_holds st0⟩
  | push st a _ hn hq ih =>
    obtain ⟨l, hl⟩ := ih
    exact ⟨a :: l, push_job_holds st l a hl (fun hm => hq ⟨l, hl.1, hm⟩) hn⟩
  | pop st st1 r _ hp ih =>
    obtain ⟨l, hl⟩ := ih
    cases l with
    | nil =>
      rw [pop_job_empty st hl] at hp
      simp only [Except.ok.injEq, Prod.mk.injEq] at hp
      exact ⟨[], hp.2 ▸ hl⟩
    | cons a t =>
      obtain ⟨st2, hp2, hh, _⟩ := pop_job_holds st a t hl
      rw [hp2] at hp
      simp only [Except.ok.injEq, Prod.mk.injEq] at hp
      exact ⟨t, hp.2 ▸ hh⟩
  | store st a v _ hq ih =>
    obtain ⟨l, hl⟩ := ih
    refine ⟨l, chain_congr st.args _ l _ (fun b hb => ?_) hl.1, hl.2.1, hl.2.2⟩
    have : b ≠ a := fun e => hq ⟨l, hl.1, e ▸ hb⟩
    simp only [this, if_false]

/-! ## The properties of the specification, continued -/

/-- C14: with an angle other than 90, 180 and 270 `rotate_picture` does mutate the
picture: it keeps the width and the height, but the picture it leaves is the new
image made by `init_picture_from_size`, whatever the pixels were before; the
`default` case of the `switch` is reached only after the picture was cleared. -/
theorem rotate_undefined_angle_clears (fresh : Int → Int → Int → Int → pixel) (pic : picture)
    (angle : Int) (h90 : angle ≠ 90) (h180 : angle ≠ 180) (h270 : angle ≠ 270) :
    ∃ out, rotate_picture fresh pic angle = .ok out ∧
      out.width = pic.width ∧ out.height = pic.height ∧
      ∀ x y, out.img x y = fresh pic.width pic.height x y :=
  ⟨_, rotate_picture_other fresh pic angle h90 h180 h270, rfl, rfl, fun _ _ => rfl⟩

/-- The 3 by 2 picture `wide` rotated by 45, new images being black: the pixel
`(1, 1)`, which was (4, 10, 199), is black afterwards. -/
theorem rotate_undefined_angle_clears_witness :
    ((45 : Int) ≠ 90 ∧ (45 : Int) ≠ 180 ∧ (45 : Int) ≠ 270) ∧
    (∃ out, rotate_picture fresh_black wide 45 = .ok out ∧
      out.width = wide.width ∧ out.height = wide.height ∧
      ∀ x y, out.img x y = fresh_black wide.width wide.height x y) ∧
    wide.img 1 1 = ⟨4, 10, 199⟩ ∧ fresh_black wide.width wide.height 1 1 = ⟨0, 0, 0⟩ :=
  ⟨by decide, rotate_undefined_angle_clears fresh_black wide 45 (by decide) (by decide)
    (by decide), by decide, rfl⟩

/-- C15: with a plane other than 'V' and 'H' `flip_picture` returns the picture as
it was: same width, same height, same pixel at every coordinate. -/
theorem flip_undefined_plane (pic : picture) (plane : Char)
    (hV : plane ≠ 'V') (hH : plane ≠ 'H') :
    flip_picture pic plane = .ok pic := by
  unfold flip_picture
  simp only [if_neg hV, if_neg hH]

/-- The 3 by 2 picture `wide` flipped over the plane 'X'. -/
theorem flip_undefined_plane_witness :
    ('X' ≠ 'V' ∧ 'X' ≠ 'H') ∧ flip_picture wide 'X' = .ok wide :=
  ⟨by decide, flip_undefined_plane wide 'X' (by decide) (by decide)⟩

/-- C18: for every picture, of any width and height, `rotate_picture` by 90 and
then by 270 returns a picture of the same width and height with the same pixel at
every coordinate of the picture; and `rotate_picture` by 90 applied twice returns
the picture that one `rotate_picture` by 180 returns. -/
theorem rotate_round_trip (fresh : Int → Int → Int → Int → pixel) (pic : picture) :
    (∃ q out, rotate_picture fresh pic 90 = .ok q ∧ rotate_picture fresh q 270 = .ok out ∧
      out.width = pic.width ∧ out.height = pic.height ∧
      ∀ x y, in_bounds pic x y → out.img x y = pic.img x y) ∧
    (∃ q out, rotate_picture fresh pic 90 = .ok q ∧ rotate_picture fresh q 90 = .ok out ∧
      rotate_picture fresh pic 180 = .ok out) := by
  constructor
  · refine ⟨_, _, rotate_picture_90 fresh pic, rotate_picture_270 fresh _, rfl, rfl, ?_⟩
    intro x y hb
    obtain ⟨h1, h2, h3, h4⟩ := hb
    have c1 : (0 ≤ x ∧ x < pic.width) ∧ 0 ≤ y ∧ y < pic.height := ⟨⟨h1, h2⟩, h3, h4⟩
    have c2 : (0 ≤ pic.height - 1 - y ∧ pic.height - 1 - y < pic.height) ∧ 0 ≤ x ∧ x < pic.width := by
      omega
    have e : pic.height - 1 - (pic.height - 1 - y) = y := by omega
    simp only [filled]
    rw [if_pos c1, if_pos c2, e]
  · refine ⟨_, _, rotate_picture_90 fresh pic, rotate_picture_90 fresh _, ?_⟩
    rw [rotate_picture_180]
    congr 1
    simp only [filled, picture.mk.injEq, true_and]
    funext a b
    by_cases hb : (0 ≤ a ∧ a < pic.width) ∧ 0 ≤ b ∧ b < pic.height
    · have c2 : (0 ≤ b ∧ b < pic.height) ∧ 0 ≤ pic.width - 1 - a ∧ pic.width - 1 - a < pic.width := by
        omega
      rw [if_pos hb, if_pos hb, if_pos c2]
    · rw [if_neg hb, if_neg hb]

/-- C20: `invert_picture` applied twice to a picture with 8-bit channels returns
the picture, equal at every coordinate and channel; the picture in between has
8-bit channels too. -/
theorem invert_picture_involution (pic : picture)
    (h8 : ∀ x y, in_bounds pic x y → eight_bit (pic.img x y)) :
    ∃ once, invert_picture pic = .ok once ∧ invert_picture once = .ok pic ∧
      once.width = pic.width ∧ once.height = pic.height ∧
      ∀ x y, in_bounds pic x y → eight_bit (once.img x y) := by
  refine ⟨inverted pic, invert_picture_inverted pic, ?_, rfl, rfl, ?_⟩
  · rw [invert_picture_inverted, inverted_twice]
  · intro x y hb
    have := h8 x y hb
    simp only [inverted, hb, if_true, invert_pixel, MAX_PIXEL_INTENSITY, eight_bit] at this ⊢
    omega

/-- The 3 by 2 picture `wide`, whose channels are 8-bit values: its pixel `(1, 1)`,
(4, 10, 199), becomes (251, 245, 56) and then (4, 10, 199) again. -/
theorem invert_picture_involution_witness :
    (∀ x y, in_bounds wide x y → eight_bit (wide.img x y)) ∧
    (∃ once, invert_picture wide = .ok once ∧ invert_picture once = .ok wide ∧
      once.width = wide.width ∧ once.height = wide.height ∧
      ∀ x y, in_bounds wide x y → eight_bit (once.img x y)) ∧
    invert_pixel (wide.img 1 1) = ⟨251, 245, 56⟩ :=
  ⟨fun x y hb => by simp only [in_bounds, wide] at hb; simp only [eight_bit, wide]; omega,
    invert_picture_involution wide (fun x y hb => by
      simp only [in_bounds, wide] at hb; simp only [eight_bit, wide]; omega),
    by decide⟩

/-- C11: `pop_job` on a queue of length 0 returns `NULL` and leaves the memory,
front and length included, as it was; on a queue of length above 0 with front job
`a` it returns `a`, whose `next` link is then `NULL`, and leaves a queue one
shorter whose front is the job `a` was linked to; nothing else changes. -/
theorem pop_job_cases (st : job_state) :
    (st.job_queue.len = 0 → pop_job st = .ok (none, st)) ∧
    (∀ a, 0 < st.job_queue.len → st.job_queue.front = some a →
      ∃ st1, pop_job st = .ok (some a, st1) ∧
        (st1.args a).next = none ∧
        st1.job_queue.len = st.job_queue.len - 1 ∧
        st1.job_queue.front = (st.args a).next ∧
        job_region st1 a = job_region st a ∧
        ∀ b, b ≠ a → st1.args b = st.args b) := by
  constructor
  · intro h0
    unfold pop_job
    rw [if_pos h0]
  · intro a hpos hf
    have h0 : st.job_queue.len ≠ 0 := by omega
    refine ⟨{ args := set_next st.args a none,
              job_queue := { front := (st.args a).next, len := st.job_queue.len - 1 } },
      ?_, set_next_same st.args a none, rfl, rfl, ?_,
      fun b hb => set_next_other st.args a b none hb⟩
    · unfold pop_job
      rw [if_neg h0, hf]
    · obtain ⟨e1, e2, e3, e4⟩ := set_next_region st.args a a none
      simp only [job_region]
      rw [e1, e2, e3, e4]

/-- The queue made by pushing the jobs 3 and 1: `pop_job` returns job 1 and
leaves a queue of length 1 with job 3 in front; on the queue just made by
`init_queue` it returns `NULL`. -/
theorem pop_job_cases_witness :
    ((init_queue blank_state).job_queue.len = 0 ∧
      0 < (push_all [3, 1] (init_queue blank_state)).job_queue.len ∧
      (push_all [3, 1] (init_queue blank_state)).job_queue.front = some 1) ∧
    pop_job (init_queue blank_state) = .ok (none, init_queue blank_state) ∧
    ∃ st1, pop_job (push_all [3, 1] (init_queue blank_state)) = .ok (some 1, st1) ∧
      (st1.args 1).next = none ∧
      st1.job_queue.len = 1 ∧
      st1.job_queue.front = some 3 := by
  refine ⟨⟨rfl, by decide, rfl⟩, (pop_job_cases (init_queue blank_state)).1 rfl, ?_⟩
  obtain ⟨st1, hp, hn, hl, hf, _, _⟩ :=
    (pop_job_cases (push_all [3, 1] (init_queue blank_state))).2 1 (by decide) rfl
  exact ⟨st1, hp, hn, by rw [hl]; rfl, by rw [hf]; rfl⟩

/-- C12: the regions of the tasks of `blur_by_column` and of `blur_by_row` need
not be disjoint. All tasks of a call share one argument block, which the spawning
loop overwrites; on a picture at least 4 by 4, when the tasks read the block after
the last round of the loop, which they may, the first two tasks of
`blur_by_column` both work on the column `width - 2` and both contain the pixel
`(width - 2, 1)`, and the first two tasks of `blur_by_row` both contain the pixel
`(1, height - 2)`. Only when every task reads the block as soon as it is spawned
are the regions disjoint, as are those of `blur_by_sector`, whose tasks have
blocks of their own. -/
theorem shared_block_regions_overlap (pic : picture) (hw : 4 ≤ pic.width)
    (hh : 4 ≤ pic.height) :
    (reads_shared_block ((pic.width - 2) - 0).toNat (fun _ => pic.width - 3) ∧
      (∃ a b rest, blur_by_column_tasks pic (fun _ => pic.width - 3) = a :: b :: rest ∧
        in_region a (pic.width - 2) 1 ∧ in_region b (pic.width - 2) 1) ∧
      ¬ (blur_by_column_tasks pic (fun _ => pic.width - 3)).Pairwise disjoint_regions) ∧
    (reads_shared_block ((pic.height - 2) - 0).toNat (fun _ => pic.height - 3) ∧
      (∃ a b rest, blur_by_row_tasks pic (fun _ => pic.height - 3) = a :: b :: rest ∧
        in_region a 1 (pic.height - 2) ∧ in_region b 1 (pic.height - 2)) ∧
      ¬ (blur_by_row_tasks pic (fun _ => pic.height - 3)).Pairwise disjoint_regions) ∧
    (blur_by_column_tasks pic (fun i => i)).Pairwise disjoint_regions ∧
    (blur_by_row_tasks pic (fun i => i)).Pairwise disjoint_regions ∧
    (blur_by_sector pic = run_tasks (blur_by_sector_tasks pic) pic ∧
      (blur_by_sector_tasks pic).Pairwise disjoint_regions) := by
  obtain ⟨k, hk⟩ : ∃ k, ((pic.width - 2) - 0).toNat = k + 2 :=
    ⟨((pic.width - 2) - 0).toNat - 2, by omega⟩
  obtain ⟨m, hm⟩ : ∃ m, ((pic.height - 2) - 0).toNat = m + 2 :=
    ⟨((pic.height - 2) - 0).toNat - 2, by omega⟩
  have hcol : in_region (blur_by_column_args pic (pic.width - 3)) (pic.width - 2) 1 := by
    simp only [in_region, blur_by_column_args]
    omega
  have hrow : in_region (blur_by_row_args pic (pic.height - 3)) 1 (pic.height - 2) := by
    simp only [in_region, blur_by_row_args]
    omega
  have ecol : blur_by_column_tasks pic (fun _ => pic.width - 3) =
      blur_by_column_args pic (pic.width - 3) :: blur_by_column_args pic (pic.width - 3) ::
        (int_range (0 + 1 + 1) k).map (fun _ => blur_by_column_args pic (pic.width - 3)) := by
    unfold blur_by_column_tasks
    rw [hk]
    rfl
  have erow : blur_by_row_tasks pic (fun _ => pic.height - 3) =
      blur_by_row_args pic (pic.height - 3) :: blur_by_row_args pic (pic.height - 3) ::
        (int_range (0 + 1 + 1) m).map (fun _ => blur_by_row_args pic (pic.height - 3)) := by
    unfold blur_by_row_tasks
    rw [hm]
    rfl
  refine ⟨⟨?_, ⟨_, _, _, ecol, hcol, hcol⟩, ?_⟩, ⟨?_, ⟨_, _, _, erow, hrow, hrow⟩, ?_⟩,
    ?_, ?_, blur_by_sector_run_tasks pic, ?_⟩
  · intro i h1 h2
    show i ≤ pic.width - 3 ∧ pic.width - 3 < (((pic.width - 2) - 0).toNat : Int)
    omega
  · rw [ecol]
    intro hp
    exact (List.rel_of_pairwise_cons hp (List.mem_cons_self _ _)) (pic.width - 2) 1
      ⟨hcol, hcol⟩
  · intro i h1 h2
    show i ≤ pic.height - 3 ∧ pic.height - 3 < (((pic.height - 2) - 0).toNat : Int)
    omega
  · rw [erow]
    intro hp
    exact (List.rel_of_pairwise_cons hp (List.mem_cons_self _ _)) 1 (pic.height - 2)
      ⟨hrow, hrow⟩
  · refine List.Pairwise.map _ (fun i k hik => ?_) (int_range_increasing _ 0)
    intro x y h
    simp only [in_region, blur_by_column_args] at h
    omega
  · refine List.Pairwise.map _ (fun i k hik => ?_) (int_range_increasing _ 0)
    intro x y h
    simp only [in_region, blur_by_row_args] at h
    omega
  · unfold blur_by_sector_tasks
    by_cases h0 : sectors_height pic = 0
    · rw [if_pos h0]
      exact List.pairwise_singleton _ _
    · rw [if_neg h0]
      have hd : sectors_height pic = (pic.height - 2) / 4 :=
        Int.tdiv_eq_ediv (by omega) (by decide)
      have hs : 0 ≤ sectors_height pic := by rw [hd]; omega
      simp only [blur_by_sector_args, List.pairwise_cons, List.mem_cons, List.mem_singleton,
        List.not_mem_nil, forall_eq_or_imp, forall_eq, disjoint_regions, in_region,
        List.Pairwise.nil, and_true, false_implies, implies_true]
      refine ⟨⟨?_, ?_, ?_⟩, ⟨?_, ?_⟩, ?_⟩ <;> intro x y <;> omega

/-- The 5 by 12 picture `tall`: when its three column tasks read the shared block
after the last round, all three work on the region of column 3. -/
theorem shared_block_regions_overlap_witness :
    (4 ≤ tall.width ∧ 4 ≤ tall.height) ∧
    blur_by_column_tasks tall (fun _ => tall.width - 3) =
      [{ startX := 3, startY := 1, width := 1, height := 12, next := none },
       { startX := 3, startY := 1, width := 1, height := 12, next := none },
       { startX := 3, startY := 1, width := 1, height := 12, next := none }] ∧
    ¬ (blur_by_column_tasks tall (fun _ => tall.width - 3)).Pairwise disjoint_regions ∧
    ¬ (blur_by_row_tasks tall (fun _ => tall.height - 3)).Pairwise disjoint_regions ∧
    blur_by_column_tasks tall (fun i => i) =
      [{ startX := 1, startY := 1, width := 1, height := 12, next := none },
       { startX := 2, startY := 1, width := 1, height := 12, next := none },
       { startX := 3, startY := 1, width := 1, height := 12, next := none }] :=
  ⟨by decide, rfl, (shared_block_regions_overlap tall (by decide) (by decide)).1.2.2,
    (shared_block_regions_overlap tall (by decide) (by decide)).2.1.2.2, rfl⟩

/-- C13, as the code is: no strategy checks the size of the picture. On a picture
less than 3 wide or less than 3 high `blur_by_pixel` enqueues no job and returns
the picture as it was; `blur_by_column`, when the width is below 3, and
`blur_by_row`, when the height is below 3, have no task and return the picture as
it was; `blur_seq` still hands its region to `blur_picture_section`, and
`blur_by_sector` still has a task. -/
theorem small_picture_strategies (mem : Nat → blur_args) (st0 : job_state) (pic : picture)
    (h : pic.width < 3 ∨ pic.height < 3) :
    (initialize_args pic (init_queue st0)).job_queue.len = 0 ∧
    blur_by_pixel mem pic = .ok pic ∧
    (pic.width < 3 →
      (∀ seen, blur_by_column_tasks pic seen = []) ∧ blur_by_column pic = .ok pic) ∧
    (pic.height < 3 →
      (∀ seen, blur_by_row_tasks pic seen = []) ∧ blur_by_row pic = .ok pic) ∧
    blur_seq pic = blur_picture_section (blur_seq_args pic) pic ∧
    blur_by_sector_tasks pic ≠ [] := by
  refine ⟨?_, blur_by_pixel_small mem pic h, ?_, ?_, rfl, ?_⟩
  · rw [initialize_args_small pic _ h]
    rfl
  · intro hw
    have e : ∀ seen, blur_by_column_tasks pic seen = [] := by
      intro seen
      unfold blur_by_column_tasks
      have : ((pic.width - 2) - 0).toNat = 0 := by omega
      rw [this]
      rfl
    refine ⟨e, ?_⟩
    rw [blur_by_column_run_tasks, e]
    rfl
  · intro hh
    have e : ∀ seen, blur_by_row_tasks pic seen = [] := by
      intro seen
      unfold blur_by_row_tasks
      have : ((pic.height - 2) - 0).toNat = 0 := by omega
      rw [this]
      rfl
    refine ⟨e, ?_⟩
    rw [blur_by_row_run_tasks, e]
    rfl
  · unfold blur_by_sector_tasks blur_by_sector_args
    by_cases h0 : sectors_height pic = 0
    · rw [if_pos h0]; exact List.cons_ne_nil _ _
    · rw [if_neg h0]; exact List.cons_ne_nil _ _

/-- The 2 by 2 picture `small`: no job, no task of `blur_by_column` or
`blur_by_row`, and `blur_by_pixel` returns it as it was. -/
theorem small_picture_strategies_witness :
    (small.width < 3 ∨ small.height < 3) ∧
    (initialize_args small (init_queue blank_state)).job_queue.len = 0 ∧
    blur_by_pixel blank_jobs small = .ok small ∧
    blur_by_column small = .ok small ∧ blur_by_row small = .ok small :=
  ⟨by decide, (small_picture_strategies blank_jobs blank_state small (by decide)).1,
    (small_picture_strategies blank_jobs blank_state small (by decide)).2.1,
    ((small_picture_strategies blank_jobs blank_state small (by decide)).2.2.1 (by decide)).2,
    ((small_picture_strategies blank_jobs blank_state small (by decide)).2.2.2.1 (by decide)).2⟩

/-- C13 as stated fails: on the 2 by 2 picture `small`, `blur_seq` does run its
task on the region {1, 1, 2, 2}, and the task stops at the read of `(0, 2)`;
`blur_seq` does not return the picture unchanged. -/
theorem small_picture_blur_seq_runs :
    small.width < 3 ∧ small.height < 3 ∧
    blur_seq_args small = { startX := 1, startY := 1, width := 2, height := 2, next := none } ∧
    blur_seq small = .error (.get 0 2) ∧
    blur_seq small ≠ .ok small := by
  refine ⟨by decide, by decide, rfl, rfl, ?_⟩
  intro h
  have e : blur_seq small = .error (.get 0 2) := rfl
  rw [e] at h
  cases h

/-- C17: `blur_seq` and `blur_picture` do not produce the same image. On every
picture at least 3 by 3 `blur_picture` returns the picture with its interior
blurred, while `blur_seq` stops at the read of `(0, height)`, below the picture. -/
theorem blur_seq_differs_from_blur_picture (pic : picture)
    (hw : 3 ≤ pic.width) (hh : 3 ≤ pic.height) :
    blur_picture pic = .ok (blurred_in pic (interior_region pic) pic) ∧
    blur_seq pic = .error (.get 0 pic.height) :=
  ⟨blur_picture_blurred pic, blur_seq_fault pic hw hh⟩

/-- The 3 by 3 picture `nine`: `blur_picture` sets the centre to (11, 253, 7),
`blur_seq` stops at the read of `(0, 3)`. -/
theorem blur_seq_differs_from_blur_picture_witness :
    (3 ≤ nine.width ∧ 3 ≤ nine.height) ∧
    (blur_picture nine = .ok (blurred_in nine (interior_region nine) nine) ∧
      blur_seq nine = .error (.get 0 3)) ∧
    (blurred_in nine (interior_region nine) nine).img 1 1 = ⟨11, 253, 7⟩ :=
  ⟨by decide, blur_seq_differs_from_blur_picture nine (by decide) (by decide), by decide⟩

/-- C19: in every state reachable from `init_queue` by `push_job` of a job with
`next = NULL` that is not in the queue and by `pop_job`, the length `len` is not
negative, the chain of `next` links from `front` runs through exactly `len` jobs
and ends in `NULL`, and `front` is `NULL` exactly when `len` is 0. -/
theorem queue_invariant (st : job_state) (h : reachable st) :
    0 ≤ st.job_queue.len ∧
    (∃ l : List Nat, chain st.args st.job_queue.front l ∧ st.job_queue.len = l.length ∧
      l.Nodup) ∧
    (st.job_queue.front = none ↔ st.job_queue.len = 0) := by
  obtain ⟨l, hc, hlen, hnd⟩ := reachable_holds st h
  refine ⟨by rw [hlen]; exact Int.natCast_nonneg _, ⟨l, hc, hlen, hnd⟩, ?_⟩
  cases l with
  | nil =>
    have hf : st.job_queue.front = none := hc
    simp only [hf, hlen, List.length_nil, Nat.cast_zero]
  | cons a t =>
    have hf : st.job_queue.front = some a := hc.1
    rw [hf, hlen]
    simp only [List.length_cons, Nat.cast_add, Nat.cast_one]
    constructor
    · intro hn; cases hn
    · intro hn; omega

/-- The state after the jobs 3 and 1 were pushed and one job was popped. -/
theorem queue_invariant_witness :
    ∃ st1, pop_job (push_job 1 (push_job 3 (init_queue blank_state))) = .ok (some 1, st1) ∧
      reachable st1 ∧
      (0 ≤ st1.job_queue.len ∧
      (∃ l : List Nat, chain st1.args st1.job_queue.front l ∧ st1.job_queue.len = l.length ∧
        l.Nodup) ∧
      (st1.job_queue.front = none ↔ st1.job_queue.len = 0)) ∧
      st1.job_queue.len = 1 ∧ st1.job_queue.front = some 3 := by
  have h0 : reachable (init_queue blank_state) := reachable.init blank_state
  have h1 : reachable (push_job 3 (init_queue blank_state)) :=
    reachable.push _ 3 h0 rfl (fun ⟨l, hl, hm⟩ => by
      cases l with
      | nil => cases hm
      | cons b t =>
        have hf : (none : Option Nat) = some b := hl.1
        cases hf)
  have h2 : reachable (push_job 1 (push_job 3 (init_queue blank_state))) :=
    reachable.push _ 1 h1 rfl (fun ⟨l, hl, hm⟩ => by
      cases l with
      | nil => cases hm
      | cons b t =>
        have hb : (some 3 : Option Nat) = some b := hl.1
        cases hb
        cases t with
        | nil => simp at hm
        | cons c u =>
          have hf : (none : Option Nat) = some c := hl.2.1
          cases hf)
  have h3 := reachable.pop _ _ (some 1) h2 rfl
  exact ⟨_, rfl, h3, queue_invariant _ h3, rfl, rfl⟩

end BlurExprmt
